import Mathlib

/-!
Verification of the locale-tree synchronization and verification engine
(`sync_en_from_fr_with_old.py` and `verify_i18n_sync.py`).

Strings are modelled as `List Char` where character-level processing matters
(placeholder guarding), and as Lean `String` elsewhere.  Python `None` is both
the JSON null value and the "absent" signal in the merge, so `Json.null`
plays both roles, exactly as in the source.  The external translation
provider is modelled as a call-indexed oracle `Nat → List Char → Option
(List Char)`: the `Nat` is the number of provider invocations made so far,
and `none` models a raised exception for that attempt.
-/

set_option maxHeartbeats 1000000

namespace Callastar

/-- JSON-like locale tree: Leaf (string / number / boolean / null),
Sequence (`arr`) and Mapping (`obj`, insertion-ordered fields). -/
inductive Json where
  | str : String → Json
  | num : Int → Json
  | bool : Bool → Json
  | null : Json
  | arr : List Json → Json
  | obj : List (String × Json) → Json
deriving Repr, Inhabited

/-- Python dict lookup `current[key]` (first matching field). -/
def findField (fields : List (String × Json)) (k : String) : Option Json :=
  match fields with
  | [] => none
  | (k2, v) :: rest => if k2 = k then some v else findField rest k

/-- `get_nested_value(data, keys)` from `sync_en_from_fr_with_old.py`:
descends through mappings, returning `None` (here `Json.null`) as soon as a
key is missing or the current node is not a mapping. -/
def get_nested_value : Json → List String → Json
  | cur, [] => cur
  | cur, k :: ks =>
    match cur with
    | .obj fields =>
      match findField fields k with
      | some v => get_nested_value v ks
      | none => .null
    | _ => .null

/-- Python `str.isspace` character set (the ASCII part used by `strip`). -/
def pyIsSpace (c : Char) : Bool :=
  c = ' ' || c = '\t' || c = '\n' || c = '\r' || c = '\x0b' || c = '\x0c'

/-- Truthiness of `s.strip()` in Python is `false` exactly when every
character of `s` is whitespace (including the empty string). -/
def pyBlank (s : String) : Bool := s.data.all pyIsSpace

/-! ## Placeholder guard -/

/-- Python `str.replace(pat, rep)`: replaces every non-overlapping
occurrence of `pat`, scanning left to right.  (The source never calls it
with an empty pattern; for an empty pattern this returns `s` unchanged.) -/
def replaceAll (pat rep : List Char) : List Char → List Char
  | [] => []
  | c :: rest =>
    if pat ≠ [] ∧ pat.isPrefixOf (c :: rest) then
      rep ++ replaceAll pat rep ((c :: rest).drop pat.length)
    else
      c :: replaceAll pat rep rest
termination_by s => s.length
decreasing_by
  all_goals simp only [List.length_drop, List.length_cons]
  · rename_i hcond
    have hp : pat.length ≥ 1 := by
      cases pat with
      | nil => exact absurd rfl hcond.1
      | cons a l => simp
    omega
  · omega

/-- `re.findall(r'\{[^\}]+\}', text)`: every non-overlapping match of an
opening brace, one or more non-`}` characters, and a closing brace, in
left-to-right order. -/
def findPlaceholders : List Char → List (List Char)
  | [] => []
  | '{' :: rest =>
    let body := rest.takeWhile (fun d => d ≠ '}')
    let rest2 := rest.dropWhile (fun d => d ≠ '}')
    if body.isEmpty ∨ rest2.isEmpty then findPlaceholders rest
    else ('{' :: (body ++ ['}'])) :: findPlaceholders rest2.tail
  | _ :: rest => findPlaceholders rest
termination_by s => s.length
decreasing_by
  all_goals simp only [List.length_cons]
  all_goals
    first
      | omega
      | (have h1 : (rest.dropWhile (fun d => d ≠ '}')).tail.length
             ≤ (rest.dropWhile (fun d => d ≠ '}')).length := by
           cases rest.dropWhile (fun d => d ≠ '}') <;> simp
         have h2 : (rest.dropWhile (fun d => d ≠ '}')).length ≤ rest.length :=
           (List.dropWhile_sublist (fun d => d ≠ '}')).length_le
         omega)

/-- The word every marker starts with. -/
def placeholderWord : List Char := "PLACEHOLDER".data

/-- The marker `f"PLACEHOLDER{i}"` for the `i`-th found placeholder. -/
def marker (i : Nat) : List Char := placeholderWord ++ (Nat.repr i).data

/-- The enumerated loop body of `protect_placeholders`: replace each found
placeholder by its marker (in order) and record `(marker, placeholder)`
pairs in insertion order (Python dict with distinct marker keys). -/
def protectLoop : List (List Char) → Nat → List Char →
    List Char × List (List Char × List Char)
  | [], _, prot => (prot, [])
  | ph :: rest, i, prot =>
    let out := protectLoop rest (i + 1) (replaceAll ph (marker i) prot)
    (out.1, (marker i, ph) :: out.2)

/-- `protect_placeholders(text)` from the source (for string input). -/
def protect_placeholders (text : List Char) :
    List Char × List (List Char × List Char) :=
  protectLoop (findPlaceholders text) 0 text

/-- `restore_placeholders(text, placeholder_map)`: replace each marker by
its original token, iterating the map in insertion order. -/
def restore_placeholders (text : List Char)
    (phMap : List (List Char × List Char)) : List Char :=
  phMap.foldl (fun acc mp => replaceAll mp.1 mp.2 acc) text

/-! ## Translate-leaf procedure -/

/-- Call-indexed translation provider: argument 1 is the number of provider
invocations made so far in this merge, argument 2 the guarded text; `none`
models an exception raised by this attempt. -/
abbrev Provider := Nat → List Char → Option (List Char)

/-- The retry loop of `translate_text`: up to `retry` provider attempts on
the guarded text; on success restore placeholders into the output; on the
last failure print a fallback warning (the returned `Bool`) and return the
original text.  Also returns the updated provider-call counter. -/
def translateAttempts (tr : Provider) (prot : List Char)
    (phMap : List (List Char × List Char)) (orig : List Char) :
    Nat → Nat → List Char × Nat × Bool
  | 0, calls => (orig, calls, false)
  | k + 1, calls =>
    match tr calls prot with
    | some t => (restore_placeholders t phMap, calls + 1, false)
    | none =>
      if k = 0 then (orig, calls + 1, true)
      else translateAttempts tr prot phMap orig k (calls + 1)

/-- `translate_text(text, translator, retry=3)` (for string input): blank
text is returned untouched without any provider call; otherwise guard the
placeholders, run the retry loop, and fall back to the original text on
exhaustion. -/
def translate_text (tr : Provider) (text : List Char) (calls : Nat)
    (retry : Nat := 3) : List Char × Nat × Bool :=
  if text.all pyIsSpace then (text, calls, false)
  else
    let p := protect_placeholders text
    translateAttempts tr p.1 p.2 text retry calls

/-! ## Merge engine -/

/-- The mutable statistics dict `{"translated": _, "reused": _, "total": _}`. -/
structure Stats where
  translated : Nat
  reused : Nat
  total : Nat
deriving Repr, DecidableEq

mutual

/-- `sync_structure(fr_data, en_old_data, translator, stats)` from the
source.  Returns the output node, the updated stats and the updated
provider-call counter.  `Json.null` doubles as Python `None` (absent
legacy counterpart), exactly as in the source. -/
def sync_structure (tr : Provider) :
    Json → Json → Stats → Nat → Json × Stats × Nat
  | .obj fields, en_old, st, c =>
    let out := syncFields tr fields en_old st c
    (.obj out.1, out.2)
  | .arr items, en_old, st, c =>
    let out := syncItems tr items en_old 0 st c
    (.arr out.1, out.2)
  | .str s, en_old, st, c =>
    let st1 : Stats := { st with total := st.total + 1 }
    match en_old with
    | .str t =>
      if ¬ pyBlank t then
        (.str t, { st1 with reused := st1.reused + 1 }, c)
      else
        let out := translate_text tr s.data c 3
        (.str (String.mk out.1), { st1 with translated := st1.translated + 1 },
          out.2.1)
    | _ =>
      let out := translate_text tr s.data c 3
      (.str (String.mk out.1), { st1 with translated := st1.translated + 1 },
        out.2.1)
  | other, _, st, c => (other, st, c)

/-- The mapping loop of `sync_structure`: for each key of the reference (in
order), fetch the legacy counterpart (`None` when the legacy node is not a
mapping or lacks the key) and recurse. -/
def syncFields (tr : Provider) :
    List (String × Json) → Json → Stats → Nat →
    List (String × Json) × Stats × Nat
  | [], _, st, c => ([], st, c)
  | (k, v) :: rest, en_old, st, c =>
    let childOld :=
      match en_old with
      | .obj _ => get_nested_value en_old [k]
      | _ => .null
    let out := sync_structure tr v childOld st c
    let outRest := syncFields tr rest en_old out.2.1 out.2.2
    ((k, out.1) :: outRest.1, outRest.2)

/-- The sequence loop of `sync_structure`: element `i` of the reference is
merged with element `i` of the legacy list when it exists, else `None`. -/
def syncItems (tr : Provider) :
    List Json → Json → Nat → Stats → Nat → List Json × Stats × Nat
  | [], _, _, st, c => ([], st, c)
  | x :: rest, en_old, i, st, c =>
    let childOld :=
      match en_old with
      | .arr es => es.getD i .null
      | _ => .null
    let out := sync_structure tr x childOld st c
    let outRest := syncItems tr rest en_old (i + 1) out.2.1 out.2.2
    (out.1 :: outRest.1, outRest.2)

end

/-! ## Diff / validator (`verify_i18n_sync.py`) -/

mutual

/-- `get_all_key_paths(data, parent_path)`: dotted/bracketed paths.  Every
mapping key contributes its path; mapping and sequence containers are
entered recursively; sequence elements contribute no path of their own.
(The Python function returns a set; the traversal order here is the
insertion order, and set operations below use membership only.) -/
def get_all_key_paths : Json → String → List String
  | .obj fields, parent => pathsFields fields parent
  | .arr items, parent => pathsItems items 0 parent
  | _, _ => []

/-- The mapping loop of `get_all_key_paths`: every key contributes its path,
and mapping/sequence values are entered recursively. -/
def pathsFields : List (String × Json) → String → List String
  | [], _ => []
  | (k, v) :: rest, parent =>
    let cur := if parent = "" then k else parent ++ "." ++ k
    (cur :: (match v with
             | .obj _ => get_all_key_paths v cur
             | .arr _ => get_all_key_paths v cur
             | _ => [])) ++ pathsFields rest parent

/-- The sequence loop of `get_all_key_paths`: only container elements are
entered (with bracketed index); elements contribute no path of their own. -/
def pathsItems : List Json → Nat → String → List String
  | [], _, _ => []
  | v :: rest, i, parent =>
    let cur := parent ++ "[" ++ Nat.repr i ++ "]"
    (match v with
     | .obj _ => get_all_key_paths v cur
     | .arr _ => get_all_key_paths v cur
     | _ => []) ++ pathsItems rest (i + 1) parent

end

/-- `compare_structures(fr_data, en_data)`: common keys, keys missing in
the second tree, keys extra in the second tree (set operations modelled by
membership filters). -/
def compare_structures (fr en : Json) : List String × List String × List String :=
  let frKeys := get_all_key_paths fr ""
  let enKeys := get_all_key_paths en ""
  (frKeys.filter (fun p => p ∈ enKeys),
   frKeys.filter (fun p => p ∉ enKeys),
   enKeys.filter (fun p => p ∉ frKeys))

/-- The embedded allow-list of `verify_values`. -/
def invariant_values : List String := ["Call a Star", "Dashboard", "Email", "EUR", "USD"]

/-- Python `x in s` substring test. -/
def strContains (s x : String) : Bool := decide (x.data <:+: s.data)

/-- The warning message `f"{path}: '{fr_data}' non traduit"`. -/
def untranslatedMsg (path val : String) : String :=
  path ++ ": \x27" ++ val ++ "\x27 non traduit"

mutual

/-- `verify_values(fr_data, en_data, path)`: lockstep walk over keys present
in both mappings; flags byte-identical string leaves longer than 3
characters unless some allow-list literal occurs as a substring. -/
def verify_values : Json → Json → String → List String
  | .obj frf, .obj enf, path => verifyFields frf enf path
  | .str f, .str e, path =>
    if f = e ∧ f.length > 3 ∧ ¬ (invariant_values.any (fun x => strContains f x)) then
      [untranslatedMsg path f]
    else []
  | _, _, _ => []

/-- The mapping loop of `verify_values`: only keys present in both mappings
are walked. -/
def verifyFields : List (String × Json) → List (String × Json) → String →
    List String
  | [], _, _ => []
  | (k, v) :: rest, enf, path =>
    (match findField enf k with
     | some env => verify_values v env (if path = "" then k else path ++ "." ++ k)
     | none => []) ++ verifyFields rest enf path

end

/-- The `status` field of the synchronization report in `main`:
`"synchronized" if not missing and not extra else "issues_detected"`. -/
def report_status (missing extra : List String) : String :=
  if missing = [] ∧ extra = [] then "synchronized" else "issues_detected"

/-! ## Auxiliary notions for the statements -/

mutual

/-- Two trees have the same structure: same node kind (Leaf / Sequence /
Mapping) at every path, mappings with identical keys in identical order,
sequences of identical length. -/
def sameShape : Json → Json → Bool
  | .obj a, .obj b => sameShapeFields a b
  | .obj _, _ => false
  | _, .obj _ => false
  | .arr a, .arr b => sameShapeItems a b
  | .arr _, _ => false
  | _, .arr _ => false
  | _, _ => true

def sameShapeFields : List (String × Json) → List (String × Json) → Bool
  | [], [] => true
  | (k1, v1) :: r1, (k2, v2) :: r2 =>
    (k1 == k2) && sameShape v1 v2 && sameShapeFields r1 r2
  | _, _ => false

def sameShapeItems : List Json → List Json → Bool
  | [], [] => true
  | v1 :: r1, v2 :: r2 => sameShape v1 v2 && sameShapeItems r1 r2
  | _, _ => false

end

mutual

/-- Number of string leaves of a tree (what `totalLeaves` counts). -/
def strCount : Json → Nat
  | .obj fields => strCountFields fields
  | .arr items => strCountItems items
  | .str _ => 1
  | _ => 0

def strCountFields : List (String × Json) → Nat
  | [] => 0
  | (_, v) :: rest => strCount v + strCountFields rest

def strCountItems : List Json → Nat
  | [] => 0
  | v :: rest => strCount v + strCountItems rest

end

mutual

/-- Number of string leaves that are empty or whitespace-only. -/
def blankStrCount : Json → Nat
  | .obj fields => blankStrCountFields fields
  | .arr items => blankStrCountItems items
  | .str s => if pyBlank s then 1 else 0
  | _ => 0

def blankStrCountFields : List (String × Json) → Nat
  | [] => 0
  | (_, v) :: rest => blankStrCount v + blankStrCountFields rest

def blankStrCountItems : List Json → Nat
  | [] => 0
  | v :: rest => blankStrCount v + blankStrCountItems rest

end

mutual

/-- Number of string leaves that are non-empty after trimming. -/
def nonBlankStrCount : Json → Nat
  | .obj fields => nonBlankStrCountFields fields
  | .arr items => nonBlankStrCountItems items
  | .str s => if pyBlank s then 0 else 1
  | _ => 0

def nonBlankStrCountFields : List (String × Json) → Nat
  | [] => 0
  | (_, v) :: rest => nonBlankStrCount v + nonBlankStrCountFields rest

def nonBlankStrCountItems : List Json → Nat
  | [] => 0
  | v :: rest => nonBlankStrCount v + nonBlankStrCountItems rest

end

/-- No duplicate keys in a mapping key list (what a Python dict guarantees). -/
def keysNodup : List String → Bool
  | [] => true
  | k :: rest => !(rest.contains k) && keysNodup rest

mutual

/-- Well-formed tree: every mapping has pairwise distinct keys (always true
of trees parsed from JSON documents, since Python dicts cannot hold
duplicate keys). -/
def wfJson : Json → Bool
  | .obj fields => keysNodup (fields.map Prod.fst) && wfFields fields
  | .arr items => wfItems items
  | _ => true

def wfFields : List (String × Json) → Bool
  | [] => true
  | (_, v) :: rest => wfJson v && wfFields rest

def wfItems : List Json → Bool
  | [] => true
  | v :: rest => wfJson v && wfItems rest

end

/-- A path segment: mapping key or sequence index. -/
inductive Seg where
  | key : String → Seg
  | idx : Nat → Seg
deriving Repr, DecidableEq

/-- Navigate a tree along a key path (the §3 KeyPath notion); `none` when
the path is absent. -/
def getAt : Json → List Seg → Option Json
  | j, [] => some j
  | .obj fields, .key k :: P =>
    match findField fields k with
    | some v => getAt v P
    | none => none
  | .arr items, .idx i :: P =>
    match items[i]? with
    | some v => getAt v P
    | none => none
  | _, _ :: _ => none

/-- The legacy value the merge engine passes down along a path: mapping
steps use `get_nested_value` (absent → `null`), sequence steps use
positional lookup with `null` out of range, on any kind mismatch `null`. -/
def legacyAt : Json → List Seg → Json
  | j, [] => j
  | j, .key k :: P =>
    legacyAt (match j with | .obj _ => get_nested_value j [k] | _ => .null) P
  | j, .idx i :: P =>
    legacyAt (match j with | .arr es => es.getD i .null | _ => .null) P

/-! ## C6 and C9 -/

/-- C6: for all trees A and B, the set of paths reported missing in B by
`compare_structures(A,B)` equals the set of paths reported extra in B by
`compare_structures(B,A)`: both are the paths of A filtered to those not in
B. -/
theorem compare_structures_missing_extra_symm (A B : Json) :
    (compare_structures A B).2.1 = (compare_structures B A).2.2 := rfl

/-- C9: the synchronization report status is `"synchronized"` iff both the
missing-in-output and extra-in-output path sets of `compare_structures` are
empty, and `"issues_detected"` otherwise. -/
theorem report_status_synchronized_iff (fr en : Json) :
    (report_status (compare_structures fr en).2.1 (compare_structures fr en).2.2
        = "synchronized"
      ↔ (compare_structures fr en).2.1 = [] ∧ (compare_structures fr en).2.2 = []) ∧
    (report_status (compare_structures fr en).2.1 (compare_structures fr en).2.2
        = "issues_detected"
      ↔ ¬ ((compare_structures fr en).2.1 = [] ∧ (compare_structures fr en).2.2 = [])) := by
  by_cases hme :
      (compare_structures fr en).2.1 = [] ∧ (compare_structures fr en).2.2 = []
  · rw [report_status, if_pos hme]
    exact ⟨⟨fun _ => hme, fun _ => rfl⟩,
      ⟨fun h => absurd h (by decide), fun h => absurd hme h⟩⟩
  · rw [report_status, if_neg hme]
    exact ⟨⟨fun h => absurd h.symm (by decide), fun h => absurd h hme⟩,
      ⟨fun _ => hme, fun _ => rfl⟩⟩

/-! ## C1: structure preservation -/

mutual

/-- The output of the merge has the same shape as the reference,
whatever the legacy tree. -/
theorem syncShape (tr : Provider) : ∀ (R L : Json) (st : Stats) (c : Nat),
    sameShape R (sync_structure tr R L st c).1 = true
  | .obj fields, L, st, c => by
    simp only [sync_structure, sameShape]
    exact syncShapeFields tr fields L st c
  | .arr items, L, st, c => by
    simp only [sync_structure, sameShape]
    exact syncShapeItems tr items L 0 st c
  | .str s, L, st, c => by
    cases L <;> simp only [sync_structure] <;> try rfl
    split <;> rfl
  | .num n, L, st, c => by cases L <;> rfl
  | .bool b, L, st, c => by cases L <;> rfl
  | .null, L, st, c => by cases L <;> rfl

theorem syncShapeFields (tr : Provider) :
    ∀ (fields : List (String × Json)) (L : Json) (st : Stats) (c : Nat),
    sameShapeFields fields (syncFields tr fields L st c).1 = true
  | [], _, _, _ => rfl
  | (k, v) :: rest, L, st, c => by
    simp only [syncFields, sameShapeFields, Bool.and_eq_true, beq_self_eq_true]
    exact ⟨⟨trivial, syncShape tr v _ st c⟩, syncShapeFields tr rest L _ _⟩

theorem syncShapeItems (tr : Provider) :
    ∀ (items : List Json) (L : Json) (i : Nat) (st : Stats) (c : Nat),
    sameShapeItems items (syncItems tr items L i st c).1 = true
  | [], _, _, _, _ => rfl
  | v :: rest, L, i, st, c => by
    simp only [syncItems, sameShapeItems, Bool.and_eq_true]
    exact ⟨syncShape tr v _ st c, syncShapeItems tr rest L _ _ _⟩

end

mutual

/-- The output of the merge has exactly the key paths of the reference. -/
theorem syncPaths (tr : Provider) : ∀ (R L : Json) (st : Stats) (c : Nat)
    (parent : String),
    get_all_key_paths (sync_structure tr R L st c).1 parent
      = get_all_key_paths R parent
  | .obj fields, L, st, c, parent => by
    simp only [sync_structure, get_all_key_paths]
    exact syncPathsFields tr fields L st c parent
  | .arr items, L, st, c, parent => by
    simp only [sync_structure, get_all_key_paths]
    exact syncPathsItems tr items L 0 st c parent
  | .str s, L, st, c, parent => by
    cases L <;> simp only [sync_structure] <;> try rfl
    split <;> rfl
  | .num n, L, st, c, parent => by cases L <;> rfl
  | .bool b, L, st, c, parent => by cases L <;> rfl
  | .null, L, st, c, parent => by cases L <;> rfl

theorem syncPathsFields (tr : Provider) :
    ∀ (fields : List (String × Json)) (L : Json) (st : Stats) (c : Nat)
    (parent : String),
    pathsFields (syncFields tr fields L st c).1 parent = pathsFields fields parent
  | [], _, _, _, _ => rfl
  | (k, v) :: rest, L, st, c, parent => by
    simp only [syncFields, pathsFields]
    cases v with
    | obj f2 =>
      simp only [sync_structure, get_all_key_paths]
      rw [syncPathsFields tr f2 _ st c, syncPathsFields tr rest L _ _ parent]
    | arr i2 =>
      simp only [sync_structure, get_all_key_paths]
      rw [syncPathsItems tr i2 _ 0 st c, syncPathsFields tr rest L _ _ parent]
    | str s =>
      have hstr : ∀ (LL : Json) (stx : Stats) (cx : Nat),
          ∃ s2 st2 c2, sync_structure tr (.str s) LL stx cx = (.str s2, st2, c2) := by
        intro LL stx cx
        cases LL <;> simp only [sync_structure]
        case str t =>
          split
          · exact ⟨_, _, _, rfl⟩
          · exact ⟨_, _, _, rfl⟩
        all_goals exact ⟨_, _, _, rfl⟩
      obtain ⟨s2, st2, c2, hs⟩ := hstr _ st c
      rw [hs]
      simp only []
      rw [syncPathsFields tr rest L _ _ parent]
    | num n =>
      simp only [sync_structure]
      rw [syncPathsFields tr rest L _ _ parent]
    | bool b =>
      simp only [sync_structure]
      rw [syncPathsFields tr rest L _ _ parent]
    | null =>
      simp only [sync_structure]
      rw [syncPathsFields tr rest L _ _ parent]

theorem syncPathsItems (tr : Provider) :
    ∀ (items : List Json) (L : Json) (i : Nat) (st : Stats) (c : Nat)
    (parent : String),
    pathsItems (syncItems tr items L i st c).1 i parent = pathsItems items i parent
  | [], _, _, _, _, _ => rfl
  | v :: rest, L, i, st, c, parent => by
    simp only [syncItems, pathsItems]
    cases v with
    | obj f2 =>
      simp only [sync_structure, get_all_key_paths]
      rw [syncPathsFields tr f2 _ st c, syncPathsItems tr rest L _ _ _ parent]
    | arr i2 =>
      simp only [sync_structure, get_all_key_paths]
      rw [syncPathsItems tr i2 _ 0 st c, syncPathsItems tr rest L _ _ _ parent]
    | str s =>
      have hstr : ∀ (LL : Json) (stx : Stats) (cx : Nat),
          ∃ s2 st2 c2, sync_structure tr (.str s) LL stx cx = (.str s2, st2, c2) := by
        intro LL stx cx
        cases LL <;> simp only [sync_structure]
        case str t =>
          split
          · exact ⟨_, _, _, rfl⟩
          · exact ⟨_, _, _, rfl⟩
        all_goals exact ⟨_, _, _, rfl⟩
      obtain ⟨s2, st2, c2, hs⟩ := hstr _ st c
      rw [hs]
      simp only []
      rw [syncPathsItems tr rest L _ _ _ parent]
    | num n =>
      simp only [sync_structure]
      rw [syncPathsItems tr rest L _ _ _ parent]
    | bool b =>
      simp only [sync_structure]
      rw [syncPathsItems tr rest L _ _ _ parent]
    | null =>
      simp only [sync_structure]
      rw [syncPathsItems tr rest L _ _ _ parent]

end

/-- Node kind in the sense of the spec: Leaf, Sequence or Mapping. -/
inductive NodeKind where
  | leaf
  | seq
  | map
deriving Repr, DecidableEq

/-- The kind of a tree node. -/
def kindOf : Json → NodeKind
  | .obj _ => .map
  | .arr _ => .seq
  | _ => .leaf

theorem sameShape_kindOf {a b : Json} (h : sameShape a b = true) :
    kindOf a = kindOf b := by
  cases a <;> cases b <;> first | rfl | simp [sameShape] at h

theorem sameShapeFields_findField {fa fb : List (String × Json)}
    (h : sameShapeFields fa fb = true) (k : String) :
    (findField fa k = none ∧ findField fb k = none) ∨
    ∃ va vb, findField fa k = some va ∧ findField fb k = some vb ∧
      sameShape va vb = true := by
  induction fa generalizing fb with
  | nil =>
    cases fb with
    | nil => exact Or.inl ⟨rfl, rfl⟩
    | cons b r => simp [sameShapeFields] at h
  | cons a ra ih =>
    cases fb with
    | nil => simp [sameShapeFields] at h
    | cons b rb =>
      obtain ⟨ka, va⟩ := a
      obtain ⟨kb, vb⟩ := b
      simp only [sameShapeFields, Bool.and_eq_true, beq_iff_eq] at h
      obtain ⟨⟨hk, hv⟩, hrest⟩ := h
      subst hk
      by_cases hka : ka = k
      · subst hka
        simp only [findField, if_pos rfl]
        exact Or.inr ⟨va, vb, rfl, rfl, hv⟩
      · simp only [findField, if_neg hka]
        exact ih hrest

theorem sameShapeItems_get {ia ib : List Json}
    (h : sameShapeItems ia ib = true) (i : Nat) :
    (ia[i]? = none ∧ ib[i]? = none) ∨
    ∃ va vb, ia[i]? = some va ∧ ib[i]? = some vb ∧
      sameShape va vb = true := by
  induction ia generalizing ib i with
  | nil =>
    cases ib with
    | nil => exact Or.inl ⟨rfl, rfl⟩
    | cons b r => simp [sameShapeItems] at h
  | cons a ra ih =>
    cases ib with
    | nil => simp [sameShapeItems] at h
    | cons b rb =>
      simp only [sameShapeItems, Bool.and_eq_true] at h
      cases i with
      | zero => exact Or.inr ⟨a, b, by simp, by simp, h.1⟩
      | succ n => simpa using ih h.2 n

/-- Shape-equal trees have the same key-path domain, with nodes of equal
shape (hence equal kind) at every common path. -/
theorem sameShape_getAt {a b : Json} (h : sameShape a b = true) :
    ∀ P : List Seg,
      (getAt a P = none ∧ getAt b P = none) ∨
      ∃ na nb, getAt a P = some na ∧ getAt b P = some nb ∧
        sameShape na nb = true := by
  intro P
  induction P generalizing a b with
  | nil => exact Or.inr ⟨a, b, by cases a <;> rfl, by cases b <;> rfl, h⟩
  | cons seg P ih =>
    cases seg with
    | key k =>
      cases a with
      | obj fa =>
        cases b with
        | obj fb =>
          have hf := sameShapeFields_findField (by simpa [sameShape] using h) k
          rcases hf with ⟨h1, h2⟩ | ⟨va, vb, h1, h2, hv⟩
          · exact Or.inl ⟨by simp [getAt, h1], by simp [getAt, h2]⟩
          · have hrec := ih hv
            rcases hrec with ⟨hr1, hr2⟩ | ⟨na, nb, hr1, hr2, hn⟩
            · exact Or.inl ⟨by simp [getAt, h1, hr1], by simp [getAt, h2, hr2]⟩
            · exact Or.inr ⟨na, nb, by simp [getAt, h1, hr1],
                by simp [getAt, h2, hr2], hn⟩
        | _ => simp [sameShape] at h
      | arr ia =>
        cases b <;> try simp [sameShape] at h
        case arr ib => exact Or.inl ⟨by simp [getAt], by simp [getAt]⟩
      | str s =>
        cases b <;> try simp [sameShape] at h
        all_goals exact Or.inl ⟨by simp [getAt], by simp [getAt]⟩
      | num n =>
        cases b <;> try simp [sameShape] at h
        all_goals exact Or.inl ⟨by simp [getAt], by simp [getAt]⟩
      | bool x =>
        cases b <;> try simp [sameShape] at h
        all_goals exact Or.inl ⟨by simp [getAt], by simp [getAt]⟩
      | null =>
        cases b <;> try simp [sameShape] at h
        all_goals exact Or.inl ⟨by simp [getAt], by simp [getAt]⟩
    | idx i =>
      cases a with
      | arr ia =>
        cases b with
        | arr ib =>
          have hf := sameShapeItems_get (by simpa [sameShape] using h) i
          rcases hf with ⟨h1, h2⟩ | ⟨va, vb, h1, h2, hv⟩
          · exact Or.inl ⟨by simp [getAt, h1], by simp [getAt, h2]⟩
          · have hrec := ih hv
            rcases hrec with ⟨hr1, hr2⟩ | ⟨na, nb, hr1, hr2, hn⟩
            · exact Or.inl ⟨by simp [getAt, h1, hr1], by simp [getAt, h2, hr2]⟩
            · exact Or.inr ⟨na, nb, by simp [getAt, h1, hr1],
                by simp [getAt, h2, hr2], hn⟩
        | _ => simp [sameShape] at h
      | obj fa =>
        cases b <;> try simp [sameShape] at h
        case obj fb => exact Or.inl ⟨by simp [getAt], by simp [getAt]⟩
      | str s =>
        cases b <;> try simp [sameShape] at h
        all_goals exact Or.inl ⟨by simp [getAt], by simp [getAt]⟩
      | num n =>
        cases b <;> try simp [sameShape] at h
        all_goals exact Or.inl ⟨by simp [getAt], by simp [getAt]⟩
      | bool x =>
        cases b <;> try simp [sameShape] at h
        all_goals exact Or.inl ⟨by simp [getAt], by simp [getAt]⟩
      | null =>
        cases b <;> try simp [sameShape] at h
        all_goals exact Or.inl ⟨by simp [getAt], by simp [getAt]⟩

/-- C1: for every reference tree R and every legacy tree L, the merge output
O has the same shape as R (mappings with exactly R\x27s keys in R\x27s order,
sequences of exactly R\x27s length, leaves where R has leaves), the same key
paths as R (`get_all_key_paths` agrees), and at every key path present in R
the node of O has the same kind (Leaf/Sequence/Mapping) while paths absent
from R are absent from O. -/
theorem sync_structure_preservation (tr : Provider) (R L : Json) (st : Stats)
    (c : Nat) :
    sameShape R (sync_structure tr R L st c).1 = true ∧
    (∀ parent, get_all_key_paths (sync_structure tr R L st c).1 parent
      = get_all_key_paths R parent) ∧
    (∀ P : List Seg,
      (getAt R P = none ∧ getAt (sync_structure tr R L st c).1 P = none) ∨
      ∃ na nb, getAt R P = some na ∧
        getAt (sync_structure tr R L st c).1 P = some nb ∧
        kindOf nb = kindOf na) := by
  refine ⟨syncShape tr R L st c, fun parent => syncPaths tr R L st c parent,
    fun P => ?_⟩
  rcases sameShape_getAt (syncShape tr R L st c) P with ⟨h1, h2⟩ |
    ⟨na, nb, h1, h2, hn⟩
  · exact Or.inl ⟨h1, h2⟩
  · exact Or.inr ⟨na, nb, h1, h2, (sameShape_kindOf hn).symm⟩

/-! ## Stats accounting lemmas -/

mutual

theorem blankAddNonBlank : ∀ j : Json,
    blankStrCount j + nonBlankStrCount j = strCount j
  | .obj fields => by
    simp only [blankStrCount, nonBlankStrCount, strCount]
    exact blankAddNonBlankFields fields
  | .arr items => by
    simp only [blankStrCount, nonBlankStrCount, strCount]
    exact blankAddNonBlankItems items
  | .str s => by
    simp only [blankStrCount, nonBlankStrCount, strCount]
    split <;> rfl
  | .num n => rfl
  | .bool b => rfl
  | .null => rfl

theorem blankAddNonBlankFields : ∀ fields : List (String × Json),
    blankStrCountFields fields + nonBlankStrCountFields fields
      = strCountFields fields
  | [] => rfl
  | (k, v) :: rest => by
    simp only [blankStrCountFields, nonBlankStrCountFields, strCountFields]
    have h1 := blankAddNonBlank v
    have h2 := blankAddNonBlankFields rest
    omega

theorem blankAddNonBlankItems : ∀ items : List Json,
    blankStrCountItems items + nonBlankStrCountItems items
      = strCountItems items
  | [] => rfl
  | v :: rest => by
    simp only [blankStrCountItems, nonBlankStrCountItems, strCountItems]
    have h1 := blankAddNonBlank v
    have h2 := blankAddNonBlankItems rest
    omega

end

mutual

/-- The merge counts every string leaf of the reference in `total`,
whatever the legacy tree and the provider do. -/
theorem syncTotal (tr : Provider) : ∀ (R L : Json) (st : Stats) (c : Nat),
    (sync_structure tr R L st c).2.1.total = st.total + strCount R
  | .obj fields, L, st, c => by
    simp only [sync_structure, strCount]
    exact syncTotalFields tr fields L st c
  | .arr items, L, st, c => by
    simp only [sync_structure, strCount]
    exact syncTotalItems tr items L 0 st c
  | .str s, L, st, c => by
    cases L <;> simp only [sync_structure, strCount] <;> try rfl
    split <;> rfl
  | .num n, L, st, c => by cases L <;> simp [sync_structure, strCount]
  | .bool b, L, st, c => by cases L <;> simp [sync_structure, strCount]
  | .null, L, st, c => by cases L <;> simp [sync_structure, strCount]

theorem syncTotalFields (tr : Provider) :
    ∀ (fields : List (String × Json)) (L : Json) (st : Stats) (c : Nat),
    (syncFields tr fields L st c).2.1.total = st.total + strCountFields fields
  | [], L, st, c => by simp [syncFields, strCountFields]
  | (k, v) :: rest, L, st, c => by
    simp only [syncFields, strCountFields]
    rw [syncTotalFields tr rest L _ _, syncTotal tr v _ st c]
    omega

theorem syncTotalItems (tr : Provider) :
    ∀ (items : List Json) (L : Json) (i : Nat) (st : Stats) (c : Nat),
    (syncItems tr items L i st c).2.1.total = st.total + strCountItems items
  | [], L, i, st, c => by simp [syncItems, strCountItems]
  | v :: rest, L, i, st, c => by
    simp only [syncItems, strCountItems]
    rw [syncTotalItems tr rest L _ _ _, syncTotal tr v _ st c]
    omega

end

mutual

/-- Every string leaf is counted in exactly one of `reused`/`translated`. -/
theorem syncReusedTranslated (tr : Provider) :
    ∀ (R L : Json) (st : Stats) (c : Nat),
    (sync_structure tr R L st c).2.1.reused
      + (sync_structure tr R L st c).2.1.translated
      = st.reused + st.translated + strCount R
  | .obj fields, L, st, c => by
    simp only [sync_structure, strCount]
    exact syncReusedTranslatedFields tr fields L st c
  | .arr items, L, st, c => by
    simp only [sync_structure, strCount]
    exact syncReusedTranslatedItems tr items L 0 st c
  | .str s, L, st, c => by
    cases L <;> simp only [sync_structure, strCount]
    case str t =>
      split
      · show st.reused + 1 + st.translated = st.reused + st.translated + 1
        omega
      · show st.reused + (st.translated + 1) = st.reused + st.translated + 1
        omega
    all_goals
      show st.reused + (st.translated + 1) = st.reused + st.translated + 1
      omega
  | .num n, L, st, c => by cases L <;> simp [sync_structure, strCount]
  | .bool b, L, st, c => by cases L <;> simp [sync_structure, strCount]
  | .null, L, st, c => by cases L <;> simp [sync_structure, strCount]

theorem syncReusedTranslatedFields (tr : Provider) :
    ∀ (fields : List (String × Json)) (L : Json) (st : Stats) (c : Nat),
    (syncFields tr fields L st c).2.1.reused
      + (syncFields tr fields L st c).2.1.translated
      = st.reused + st.translated + strCountFields fields
  | [], L, st, c => by simp [syncFields, strCountFields]
  | (k, v) :: rest, L, st, c => by
    simp only [syncFields, strCountFields]
    rw [syncReusedTranslatedFields tr rest L _ _]
    have := syncReusedTranslated tr v
      (match L with | .obj _ => get_nested_value L [k] | _ => .null) st c
    omega

theorem syncReusedTranslatedItems (tr : Provider) :
    ∀ (items : List Json) (L : Json) (i : Nat) (st : Stats) (c : Nat),
    (syncItems tr items L i st c).2.1.reused
      + (syncItems tr items L i st c).2.1.translated
      = st.reused + st.translated + strCountItems items
  | [], L, i, st, c => by simp [syncItems, strCountItems]
  | v :: rest, L, i, st, c => by
    simp only [syncItems, strCountItems]
    rw [syncReusedTranslatedItems tr rest L _ _ _]
    have := syncReusedTranslated tr v
      (match L with | .arr es => es.getD i .null | _ => .null) st c
    omega

end

/-! ## C10: blank leaves and the stats invariant -/

/-- C10: a reference string leaf that is empty or whitespace-only, whose
legacy counterpart is not a non-blank string, is placed into the output
unchanged without any provider invocation (the call counter is unchanged)
and is counted in `translated`, not `reused`; and at the end of every merge
started from zeroed stats, `total = reused + translated`. -/
theorem sync_blank_leaf_translated (tr : Provider) :
    (∀ (s : String) (L : Json) (st : Stats) (c : Nat),
      pyBlank s = true → (∀ t, L = .str t → pyBlank t = true) →
      sync_structure tr (.str s) L st c
        = (.str s,
           { st with translated := st.translated + 1, total := st.total + 1 },
           c)) ∧
    (∀ (R L : Json),
      (sync_structure tr R L ⟨0, 0, 0⟩ 0).2.1.total
        = (sync_structure tr R L ⟨0, 0, 0⟩ 0).2.1.reused
          + (sync_structure tr R L ⟨0, 0, 0⟩ 0).2.1.translated) := by
  constructor
  · intro s L st c hblank hleg
    have htt : translate_text tr s.data c 3 = (s.data, c, false) := by
      rw [translate_text, if_pos]
      exact hblank
    cases L with
    | str t =>
      have hbt : pyBlank t = true := hleg t rfl
      simp only [sync_structure, hbt, Bool.not_eq_true', if_neg, htt]
      simp [htt]
    | obj fs => simp [sync_structure, htt]
    | arr its => simp [sync_structure, htt]
    | num n => simp [sync_structure, htt]
    | bool b => simp [sync_structure, htt]
    | null => simp [sync_structure, htt]
  · intro R L
    have h1 := syncTotal tr R L ⟨0, 0, 0⟩ 0
    have h2 := syncReusedTranslated tr R L ⟨0, 0, 0⟩ 0
    simp only [Stats.mk.injEq] at h1 h2
    simp at h1 h2
    omega

/-- Witness for C10 at a concrete blank leaf and legacy tree. -/
theorem sync_blank_leaf_translated_witness :
    pyBlank "  " = true ∧ (∀ t : String, Json.null = .str t → pyBlank t = true) ∧
    sync_structure (fun _ _ => none) (.str "  ") .null ⟨0, 0, 0⟩ 0
      = (.str "  ", ⟨1, 0, 1⟩, 0) := by
  exact ⟨rfl, fun _ ht => Json.noConfusion ht,
    (sync_blank_leaf_translated (fun _ _ => none)).1 "  " .null ⟨0, 0, 0⟩ 0 rfl
      (fun _ ht => Json.noConfusion ht)⟩

/-! ## C5: retry policy, fallback, total completion -/

theorem translateAttempts_calls_le (tr : Provider) (prot : List Char)
    (phMap : List (List Char × List Char)) (orig : List Char) :
    ∀ (k c : Nat), (translateAttempts tr prot phMap orig k c).2.1 ≤ c + k
  | 0, c => by simp [translateAttempts]
  | k + 1, c => by
    rcases htr : tr c prot with _ | t
    · by_cases hk : k = 0
      · subst hk
        simp only [translateAttempts, htr, if_pos rfl]
        show c + 1 ≤ c + (0 + 1)
        omega
      · simp only [translateAttempts, htr, if_neg hk]
        have := translateAttempts_calls_le tr prot phMap orig k (c + 1)
        omega
    · simp only [translateAttempts, htr]
      show c + 1 ≤ c + (k + 1)
      omega

/-- Exhaustion at the `translate_text` level: non-blank text whose three
provider attempts all fail comes back unchanged, with exactly three calls
consumed and the fallback warning raised. -/
theorem translate_text_exhausted (tr : Provider) (text : List Char) (c : Nat)
    (hnb : text.all pyIsSpace = false)
    (hfail : ∀ n, n < 3 → tr (c + n) (protect_placeholders text).1 = none) :
    translate_text tr text c 3 = (text, c + 3, true) := by
  have h0 := hfail 0 (by omega)
  have h1 := hfail 1 (by omega)
  have h2 := hfail 2 (by omega)
  simp only [Nat.add_zero] at h0
  rw [translate_text, if_neg (by simp [hnb])]
  simp only [translateAttempts, h0, h1, h2]
  norm_num

/-- C5: the provider is attempted at most `retry` (default 3) times per
leaf (the call counter advances by at most `retry`); when non-blank text
fails all 3 attempts, the translate-leaf procedure returns the original
reference text with the fallback warning raised; a reference string leaf
whose provider calls all fail still lands in the output as the original
text (the merge does not abort); and the merge always returns full stats
(`total` counts every string leaf of R) for any provider behaviour. -/
theorem translate_retry_policy (tr : Provider) :
    (∀ (text : List Char) (c retry : Nat),
      (translate_text tr text c retry).2.1 ≤ c + retry) ∧
    (∀ (text : List Char) (c : Nat), text.all pyIsSpace = false →
      (∀ n, n < 3 → tr (c + n) (protect_placeholders text).1 = none) →
      translate_text tr text c 3 = (text, c + 3, true)) ∧
    (∀ (s : String) (L : Json) (st : Stats) (c : Nat),
      s.data.all pyIsSpace = false →
      (∀ t, L = .str t → pyBlank t = true) →
      (∀ n, n < 3 → tr (c + n) (protect_placeholders s.data).1 = none) →
      sync_structure tr (.str s) L st c
        = (.str s,
           { st with translated := st.translated + 1, total := st.total + 1 },
           c + 3)) ∧
    (∀ (R L : Json) (st : Stats) (c : Nat),
      (sync_structure tr R L st c).2.1.total = st.total + strCount R) := by
  refine ⟨?_, ?_, ?_, fun R L st c => syncTotal tr R L st c⟩
  · intro text c retry
    rw [translate_text]
    split
    · simp
    · exact translateAttempts_calls_le tr _ _ text retry c
  · intro text c hnb hfail
    exact translate_text_exhausted tr text c hnb hfail
  · intro s L st c hnb hleg hfail
    have htt := translate_text_exhausted tr s.data c hnb hfail
    cases L with
    | str t =>
      have hbt : pyBlank t = true := hleg t rfl
      simp only [sync_structure, hbt, Bool.not_eq_true', if_neg, htt]
      simp [htt]
    | obj fs => simp [sync_structure, htt]
    | arr its => simp [sync_structure, htt]
    | num n => simp [sync_structure, htt]
    | bool b => simp [sync_structure, htt]
    | null => simp [sync_structure, htt]

/-- Witness for C5 at a concrete leaf with an always-failing provider. -/
theorem translate_retry_policy_witness :
    ("ab".data.all pyIsSpace = false) ∧
    translate_text (fun _ _ => none) "ab".data 0 3 = ("ab".data, 3, true) ∧
    sync_structure (fun _ _ => none) (.str "ab") .null ⟨0, 0, 0⟩ 0
      = (.str "ab", ⟨1, 0, 1⟩, 3) := by
  refine ⟨rfl, ?_, ?_⟩
  · exact (translate_retry_policy (fun _ _ => none)).2.1 "ab".data 0 rfl
      (fun n _ => rfl)
  · exact (translate_retry_policy (fun _ _ => none)).2.2.1 "ab" .null ⟨0, 0, 0⟩ 0
      rfl (fun t ht => Json.noConfusion ht) (fun n _ => rfl)

/-! ## C3: reuse precedence -/

/-- The legacy value the merge passes down for mapping key `k`. -/
def legacyChildKey (L : Json) (k : String) : Json :=
  match L with
  | .obj _ => get_nested_value L [k]
  | _ => .null

/-- The legacy value the merge passes down for sequence index `n`. -/
def legacyChildIdx (L : Json) (n : Nat) : Json :=
  match L with
  | .arr es => es.getD n .null
  | _ => .null

theorem syncFields_findField (tr : Provider) :
    ∀ (fields : List (String × Json)) (L : Json) (st : Stats) (c : Nat)
      (k : String),
    (findField fields k = none →
      findField (syncFields tr fields L st c).1 k = none) ∧
    (∀ v, findField fields k = some v →
      ∃ st2 c2, findField (syncFields tr fields L st c).1 k
        = some (sync_structure tr v (legacyChildKey L k) st2 c2).1) := by
  intro fields
  induction fields with
  | nil =>
    intro L st c k
    exact ⟨fun _ => rfl, fun v hv => by simp [findField] at hv⟩
  | cons kv rest ih =>
    intro L st c k
    obtain ⟨k1, v1⟩ := kv
    by_cases hk : k1 = k
    · subst hk
      constructor
      · intro hnone
        simp [findField] at hnone
      · intro v hv
        simp only [findField, if_pos rfl] at hv
        cases hv
        refine ⟨st, c, ?_⟩
        simp only [syncFields, findField, if_pos rfl]
        rfl
    · constructor
      · intro hnone
        simp only [findField, if_neg hk] at hnone
        simp only [syncFields, findField, if_neg hk]
        exact (ih L _ _ k).1 hnone
      · intro v hv
        simp only [findField, if_neg hk] at hv
        simp only [syncFields, findField, if_neg hk]
        exact (ih L _ _ k).2 v hv

theorem syncItems_get_out (tr : Provider) :
    ∀ (items : List Json) (L : Json) (i0 : Nat) (st : Stats) (c : Nat)
      (j : Nat),
    (items[j]? = none → (syncItems tr items L i0 st c).1[j]? = none) ∧
    (∀ v, items[j]? = some v →
      ∃ st2 c2, (syncItems tr items L i0 st c).1[j]?
        = some (sync_structure tr v (legacyChildIdx L (i0 + j)) st2 c2).1) := by
  intro items
  induction items with
  | nil =>
    intro L i0 st c j
    exact ⟨fun _ => by simp [syncItems], fun v hv => by simp at hv⟩
  | cons x rest ih =>
    intro L i0 st c j
    cases j with
    | zero =>
      constructor
      · intro hnone
        simp at hnone
      · intro v hv
        simp only [List.getElem?_cons_zero, Option.some.injEq] at hv
        subst hv
        refine ⟨st, c, ?_⟩
        simp only [syncItems, List.getElem?_cons_zero, Option.some.injEq,
          Nat.add_zero]
        rfl
    | succ n =>
      constructor
      · intro hnone
        simp only [List.getElem?_cons_succ] at hnone
        simp only [syncItems, List.getElem?_cons_succ]
        exact (ih L (i0 + 1) _ _ n).1 hnone
      · intro v hv
        simp only [List.getElem?_cons_succ] at hv
        simp only [syncItems, List.getElem?_cons_succ]
        have hrw : i0 + 1 + n = i0 + (n + 1) := by omega
        rw [← hrw]
        exact (ih L (i0 + 1) _ _ n).2 v hv

/-- Along any key path where the reference holds a string and the merge\x27s
passed-down legacy value is a non-blank string, the output holds the legacy
string verbatim. -/
theorem syncReuseAt (tr : Provider) (P : List Seg) :
    ∀ (R L : Json) (st : Stats) (c : Nat) (s t : String),
    getAt R P = some (.str s) → legacyAt L P = .str t → pyBlank t = false →
    getAt (sync_structure tr R L st c).1 P = some (.str t) := by
  induction P with
  | nil =>
    intro R L st c s t hR hL ht
    have hR2 : R = .str s := by
      cases R <;> simpa [getAt] using hR
    have hL2 : L = .str t := by
      simpa [legacyAt] using hL
    subst hR2; subst hL2
    simp [sync_structure, ht, getAt]
  | cons seg P ih =>
    intro R L st c s t hR hL ht
    cases seg with
    | key k =>
      cases R with
      | obj fields =>
        rcases hfk : findField fields k with _ | v
        · rw [getAt, hfk] at hR
          exact absurd hR (by simp)
        · have hR' : getAt v P = some (.str s) := by
            rw [getAt, hfk] at hR
            exact hR
          have hL' : legacyAt (legacyChildKey L k) P = .str t := hL
          obtain ⟨st2, c2, hout⟩ := (syncFields_findField tr fields L st c k).2 v hfk
          have hrec := ih v (legacyChildKey L k) st2 c2 s t hR' hL' ht
          simp only [sync_structure]
          rw [getAt, hout]
          exact hrec
      | str s2 => simp [getAt] at hR
      | num n => simp [getAt] at hR
      | bool b => simp [getAt] at hR
      | null => simp [getAt] at hR
      | arr items => simp [getAt] at hR
    | idx i =>
      cases R with
      | arr items =>
        rcases hfk : items[i]? with _ | v
        · rw [getAt, hfk] at hR
          exact absurd hR (by simp)
        · have hR' : getAt v P = some (.str s) := by
            rw [getAt, hfk] at hR
            exact hR
          have hL' : legacyAt (legacyChildIdx L i) P = .str t := hL
          obtain ⟨st2, c2, hout⟩ := (syncItems_get_out tr items L 0 st c i).2 v hfk
          have hrec := ih v (legacyChildIdx L (0 + i)) st2 c2 s t hR'
            (by rw [Nat.zero_add]; exact hL') ht
          simp only [sync_structure]
          rw [getAt, hout]
          exact hrec
      | str s2 => simp [getAt] at hR
      | num n => simp [getAt] at hR
      | bool b => simp [getAt] at hR
      | null => simp [getAt] at hR
      | obj fields => simp [getAt] at hR

/-- C3: when the reference holds a string leaf and the legacy counterpart
exists, is a string, and is non-empty after trimming, the merge reuses the
legacy value verbatim, increments `reused` (and `total`) only, and never
invokes the translation provider for that leaf (the call counter is
unchanged); along any key path P with a string in R and a non-blank legacy
string, the output holds the legacy string verbatim at P. -/
theorem sync_reuse_precedence (tr : Provider) :
    (∀ (s t : String) (st : Stats) (c : Nat), pyBlank t = false →
      sync_structure tr (.str s) (.str t) st c
        = (.str t, { st with reused := st.reused + 1, total := st.total + 1 },
           c)) ∧
    (∀ (P : List Seg) (R L : Json) (st : Stats) (c : Nat) (s t : String),
      getAt R P = some (.str s) → legacyAt L P = .str t → pyBlank t = false →
      getAt (sync_structure tr R L st c).1 P = some (.str t)) := by
  constructor
  · intro s t st c ht
    simp [sync_structure, ht]
  · intro P R L st c s t hR hL ht
    exact syncReuseAt tr P R L st c s t hR hL ht

/-- Witness for C3 on the spec\x27s scenario-1 shaped input. -/
theorem sync_reuse_precedence_witness :
    pyBlank "Hello" = false ∧
    sync_structure (fun _ _ => none) (.str "Bonjour") (.str "Hello")
      ⟨0, 0, 0⟩ 0 = (.str "Hello", ⟨0, 1, 1⟩, 0) ∧
    getAt (sync_structure (fun _ _ => none)
      (.obj [("title", .str "Bonjour")]) (.obj [("title", .str "Hello")])
      ⟨0, 0, 0⟩ 0).1 [.key "title"] = some (.str "Hello") := by
  refine ⟨rfl, ?_, ?_⟩
  · exact (sync_reuse_precedence (fun _ _ => none)).1 "Bonjour" "Hello"
      ⟨0, 0, 0⟩ 0 rfl
  · exact (sync_reuse_precedence (fun _ _ => none)).2 [.key "title"]
      (.obj [("title", .str "Bonjour")]) (.obj [("title", .str "Hello")])
      ⟨0, 0, 0⟩ 0 "Bonjour" "Hello" rfl rfl rfl

/-! ## C4: self-merge -/

theorem keysNodup_findField : ∀ (fields : List (String × Json)),
    keysNodup (fields.map Prod.fst) = true →
    ∀ kv ∈ fields, findField fields kv.1 = some kv.2
  | [], _, kv, h => absurd h (List.not_mem_nil kv)
  | (k1, v1) :: rest, hnd, kv, hmem => by
    simp only [List.map_cons, keysNodup, Bool.and_eq_true] at hnd
    obtain ⟨hnotin, hndrest⟩ := hnd
    have hnotin2 : k1 ∉ rest.map Prod.fst := by simpa using hnotin
    rcases List.mem_cons.mp hmem with heq | hmem2
    · subst heq
      simp [findField]
    · have hk : k1 ≠ kv.1 := by
        intro h
        have hmm : kv.1 ∈ rest.map Prod.fst := List.mem_map_of_mem Prod.fst hmem2
        rw [← h] at hmm
        exact hnotin2 hmm
      simp only [findField, if_neg hk]
      exact keysNodup_findField rest hndrest kv hmem2

mutual

/-- Merging a well-formed tree with itself returns the tree unchanged, with
no provider call; non-blank string leaves are counted as reused, blank ones
as translated. -/
theorem syncSelf (tr : Provider) : ∀ (R : Json) (st : Stats) (c : Nat),
    wfJson R = true →
    sync_structure tr R R st c
      = (R, ⟨st.translated + blankStrCount R, st.reused + nonBlankStrCount R,
          st.total + strCount R⟩, c)
  | .obj fields, st, c, hwf => by
    simp only [wfJson, Bool.and_eq_true] at hwf
    have hff := keysNodup_findField fields hwf.1
    simp only [sync_structure, blankStrCount, nonBlankStrCount, strCount]
    rw [syncSelfFields tr fields fields st c hff hwf.2]
  | .arr items, st, c, hwf => by
    simp only [wfJson] at hwf
    simp only [sync_structure, blankStrCount, nonBlankStrCount, strCount]
    rw [syncSelfItems tr items items 0 st c (List.drop_zero items) hwf]
  | .str s, st, c, hwf => by
    by_cases hb : pyBlank s = true
    · have hb2 : s.data.all pyIsSpace = true := hb
      have htt : translate_text tr s.data c 3 = (s.data, c, false) := by
        rw [translate_text, if_pos hb2]
      simp only [sync_structure, blankStrCount, nonBlankStrCount, strCount]
      rw [if_neg (not_not_intro hb), htt]
      simp only [if_pos hb]
      rfl
    · simp only [sync_structure, blankStrCount, nonBlankStrCount, strCount]
      rw [if_pos hb]
      simp only [if_neg hb]
      rfl
  | .num n, st, c, hwf => rfl
  | .bool b, st, c, hwf => rfl
  | .null, st, c, hwf => rfl

theorem syncSelfFields (tr : Provider) :
    ∀ (sub fields : List (String × Json)) (st : Stats) (c : Nat),
    (∀ kv ∈ sub, findField fields kv.1 = some kv.2) →
    wfFields sub = true →
    syncFields tr sub (.obj fields) st c
      = (sub, ⟨st.translated + blankStrCountFields sub,
          st.reused + nonBlankStrCountFields sub,
          st.total + strCountFields sub⟩, c)
  | [], fields, st, c, _, _ => rfl
  | (k, v) :: rest, fields, st, c, hff, hwf => by
    simp only [wfFields, Bool.and_eq_true] at hwf
    have hk := hff (k, v) (List.mem_cons_self _ _)
    simp only [syncFields]
    have hchild : get_nested_value (Json.obj fields) [k] = v := by
      simp [get_nested_value, hk]
    rw [hchild]
    rw [syncSelf tr v st c hwf.1]
    rw [syncSelfFields tr rest fields _ _
      (fun kv h => hff kv (List.mem_cons_of_mem _ h)) hwf.2]
    simp only [blankStrCountFields, nonBlankStrCountFields, strCountFields]
    rw [Nat.add_assoc, Nat.add_assoc, Nat.add_assoc]

theorem syncSelfItems (tr : Provider) :
    ∀ (sub items : List Json) (i0 : Nat) (st : Stats) (c : Nat),
    items.drop i0 = sub → wfItems sub = true →
    syncItems tr sub (.arr items) i0 st c
      = (sub, ⟨st.translated + blankStrCountItems sub,
          st.reused + nonBlankStrCountItems sub,
          st.total + strCountItems sub⟩, c)
  | [], items, i0, st, c, _, _ => rfl
  | x :: rest, items, i0, st, c, hdrop, hwf => by
    simp only [wfItems, Bool.and_eq_true] at hwf
    have hx : items.getD i0 .null = x := by
      have h0 : items[i0]? = some x := by
        have hd := List.getElem?_drop items i0 0
        rw [hdrop] at hd
        simpa using hd.symm
      simp [List.getD_eq_getElem?_getD, h0]
    have hrest : items.drop (i0 + 1) = rest := by
      have hdd : items.drop (i0 + 1) = (items.drop i0).drop 1 := by
        rw [List.drop_drop]
      rw [hdd, hdrop]
      rfl
    simp only [syncItems]
    rw [hx]
    rw [syncSelf tr x st c hwf.1]
    rw [syncSelfItems tr rest items (i0 + 1) _ _ hrest hwf.2]
    simp only [blankStrCountItems, nonBlankStrCountItems, strCountItems]
    rw [Nat.add_assoc, Nat.add_assoc, Nat.add_assoc]

end

/-- C4 counterexample: the claim "stats.reused == stats.total after
self-merge" fails on the reference tree {"a": ""} whose single string leaf
is blank: the self-merge yields reused = 0 and total = 1. -/
theorem sync_self_merge_counterexample :
    wfJson (Json.obj [("a", .str "")]) = true ∧
    (sync_structure (fun _ _ => none) (Json.obj [("a", .str "")])
        (Json.obj [("a", .str "")]) ⟨0, 0, 0⟩ 0).2.1.reused
      ≠ (sync_structure (fun _ _ => none) (Json.obj [("a", .str "")])
        (Json.obj [("a", .str "")]) ⟨0, 0, 0⟩ 0).2.1.total :=
  ⟨rfl, by decide⟩

/-- C4 (amended): for every well-formed reference tree R, the self-merge
returns R itself (hence every string leaf of the output equals R at the
same path) with the provider never invoked (call counter unchanged);
`reused` counts exactly the non-blank string leaves, so when R has no
empty-or-whitespace-only string leaf, `stats.reused == stats.total`. -/
theorem sync_self_merge (tr : Provider) (R : Json) (st : Stats) (c : Nat)
    (hwf : wfJson R = true) :
    sync_structure tr R R st c
      = (R, ⟨st.translated + blankStrCount R, st.reused + nonBlankStrCount R,
          st.total + strCount R⟩, c) ∧
    (blankStrCount R = 0 →
      (sync_structure tr R R ⟨0, 0, 0⟩ 0).2.1.reused
        = (sync_structure tr R R ⟨0, 0, 0⟩ 0).2.1.total) := by
  refine ⟨syncSelf tr R st c hwf, fun hb => ?_⟩
  rw [syncSelf tr R ⟨0, 0, 0⟩ 0 hwf]
  have hsum := blankAddNonBlank R
  show 0 + nonBlankStrCount R = 0 + strCount R
  omega

/-- Witness for C4 (amended) at a concrete two-leaf tree. -/
theorem sync_self_merge_witness :
    wfJson (Json.obj [("t", .str "Bonjour"), ("n", Json.null)]) = true ∧
    (sync_structure (fun _ _ => none)
        (Json.obj [("t", .str "Bonjour"), ("n", Json.null)])
        (Json.obj [("t", .str "Bonjour"), ("n", Json.null)]) ⟨1, 2, 3⟩ 5
      = (Json.obj [("t", .str "Bonjour"), ("n", Json.null)],
         ⟨1 + blankStrCount (Json.obj [("t", .str "Bonjour"), ("n", Json.null)]),
          2 + nonBlankStrCount (Json.obj [("t", .str "Bonjour"), ("n", Json.null)]),
          3 + strCount (Json.obj [("t", .str "Bonjour"), ("n", Json.null)])⟩, 5) ∧
     (blankStrCount (Json.obj [("t", .str "Bonjour"), ("n", Json.null)]) = 0 →
      (sync_structure (fun _ _ => none)
          (Json.obj [("t", .str "Bonjour"), ("n", Json.null)])
          (Json.obj [("t", .str "Bonjour"), ("n", Json.null)]) ⟨0, 0, 0⟩ 0).2.1.reused
        = (sync_structure (fun _ _ => none)
            (Json.obj [("t", .str "Bonjour"), ("n", Json.null)])
            (Json.obj [("t", .str "Bonjour"), ("n", Json.null)]) ⟨0, 0, 0⟩ 0).2.1.total)) :=
  ⟨rfl, sync_self_merge (fun _ _ => none) _ ⟨1, 2, 3⟩ 5 rfl⟩

/-! ## C7: what `get_all_key_paths` collects -/

/-- Rendering of one path segment in the dotted/bracketed addressing. -/
def renderSeg (parent : String) : Seg → String
  | .key k => if parent = "" then k else parent ++ "." ++ k
  | .idx i => parent ++ "[" ++ Nat.repr i ++ "]"

/-- Rendering of a whole key path below a parent prefix. -/
def renderPath (parent : String) : List Seg → String
  | [] => parent
  | seg :: P => renderPath (renderSeg parent seg) P

/-- `MappingEntryPath data P`: the key path P navigates `data` successfully
and ends with a mapping-key step (it addresses a mapping entry, container
or leaf alike). -/
inductive MappingEntryPath : Json → List Seg → Prop
  | keyHere {fields : List (String × Json)} {k : String} {v : Json}
      (h : findField fields k = some v) :
      MappingEntryPath (.obj fields) [.key k]
  | keyThere {fields : List (String × Json)} {k : String} {v : Json}
      {P : List Seg} (h : findField fields k = some v)
      (hP : MappingEntryPath v P) :
      MappingEntryPath (.obj fields) (.key k :: P)
  | idxThere {items : List Json} {i : Nat} {v : Json} {P : List Seg}
      (h : items[i]? = some v) (hP : MappingEntryPath v P) :
      MappingEntryPath (.arr items) (.idx i :: P)

/-- C7 counterexample: in the tree {"a": ["x"]} the sequence element at
key path a[0] is a node reachable from the root, but `get_all_key_paths`
returns only {"a"}: sequence elements have no path of their own. -/
theorem get_all_key_paths_counterexample :
    getAt (Json.obj [("a", .arr [.str "x"])]) [.key "a", .idx 0]
      = some (.str "x") ∧
    get_all_key_paths (Json.obj [("a", .arr [.str "x"])]) "" = ["a"] ∧
    "a[0]" ∉ get_all_key_paths (Json.obj [("a", .arr [.str "x"])]) "" := by
  refine ⟨rfl, rfl, ?_⟩
  decide

theorem findField_mem {fields : List (String × Json)} {k : String} {v : Json}
    (h : findField fields k = some v) : (k, v) ∈ fields := by
  induction fields with
  | nil => simp [findField] at h
  | cons kv rest ih =>
    obtain ⟨k1, v1⟩ := kv
    by_cases hk : k1 = k
    · subst hk
      have h2 : v1 = v := by simpa [findField] using h
      subst h2
      exact List.mem_cons_self _ _
    · simp only [findField, if_neg hk] at h
      exact List.mem_cons_of_mem _ (ih h)

theorem wfFields_mem {fields : List (String × Json)} {k : String} {v : Json}
    (hwf : wfFields fields = true) (h : (k, v) ∈ fields) : wfJson v = true := by
  induction fields with
  | nil => exact absurd h (List.not_mem_nil _)
  | cons kv rest ih =>
    simp only [wfFields, Bool.and_eq_true] at hwf
    rcases List.mem_cons.mp h with heq | hmem
    · rw [← heq] at hwf
      exact hwf.1
    · exact ih hwf.2 hmem

theorem wfItems_mem {items : List Json} {v : Json}
    (hwf : wfItems items = true) (h : v ∈ items) : wfJson v = true := by
  induction items with
  | nil => exact absurd h (List.not_mem_nil _)
  | cons x rest ih =>
    simp only [wfItems, Bool.and_eq_true] at hwf
    rcases List.mem_cons.mp h with heq | hmem
    · rw [heq]; exact hwf.1
    · exact ih hwf.2 hmem

/-- A mapping-entry path can only start at a container. -/
theorem MappingEntryPath.container {v : Json} {P : List Seg}
    (h : MappingEntryPath v P) :
    (∃ f, v = .obj f) ∨ (∃ i, v = .arr i) := by
  cases h with
  | keyHere h => exact Or.inl ⟨_, rfl⟩
  | keyThere h hP => exact Or.inl ⟨_, rfl⟩
  | idxThere h hP => exact Or.inr ⟨_, rfl⟩

/-- A mapping-entry path navigates to an actual node. -/
theorem MappingEntryPath.getAt_isSome {data : Json} {P : List Seg}
    (h : MappingEntryPath data P) : ∃ node, getAt data P = some node := by
  induction h with
  | @keyHere fields k v h => exact ⟨v, by simp [getAt, h]⟩
  | keyThere h hP ih =>
    obtain ⟨node, hn⟩ := ih
    exact ⟨node, by simp [getAt, h, hn]⟩
  | idxThere h hP ih =>
    obtain ⟨node, hn⟩ := ih
    exact ⟨node, by simp [getAt, h, hn]⟩

theorem pathsFields_mem_cur {fields : List (String × Json)} {k : String}
    {v : Json} (h : (k, v) ∈ fields) (parent : String) :
    (if parent = "" then k else parent ++ "." ++ k)
      ∈ pathsFields fields parent := by
  induction fields with
  | nil => exact absurd h (List.not_mem_nil _)
  | cons kv rest ih =>
    obtain ⟨k1, v1⟩ := kv
    rcases List.mem_cons.mp h with heq | hmem
    · cases heq
      simp only [pathsFields]
      exact List.mem_append_left _ (List.mem_cons_self _ _)
    · simp only [pathsFields]
      exact List.mem_append_right _ (ih hmem)

theorem pathsFields_mem_inner {fields : List (String × Json)} {k : String}
    {v : Json} {x : String} (h : (k, v) ∈ fields)
    (hcont : (∃ f, v = .obj f) ∨ (∃ i, v = .arr i)) (parent : String)
    (hx : x ∈ get_all_key_paths v (if parent = "" then k else parent ++ "." ++ k)) :
    x ∈ pathsFields fields parent := by
  induction fields with
  | nil => exact absurd h (List.not_mem_nil _)
  | cons kv rest ih =>
    obtain ⟨k1, v1⟩ := kv
    rcases List.mem_cons.mp h with heq | hmem
    · cases heq
      simp only [pathsFields]
      rcases hcont with ⟨f, hf⟩ | ⟨i, hi⟩
      · subst hf
        exact List.mem_append_left _ (List.mem_cons_of_mem _ hx)
      · subst hi
        exact List.mem_append_left _ (List.mem_cons_of_mem _ hx)
    · simp only [pathsFields]
      exact List.mem_append_right _ (ih hmem)

theorem pathsItems_mem_inner {items : List Json} {v : Json} {x : String} :
    ∀ (i0 j : Nat), items[j]? = some v →
    (∃ f, v = .obj f) ∨ (∃ i, v = .arr i) →
    ∀ parent, x ∈ get_all_key_paths v (parent ++ "[" ++ Nat.repr (i0 + j) ++ "]") →
    x ∈ pathsItems items i0 parent := by
  induction items with
  | nil => intro i0 j h; simp at h
  | cons y rest ih =>
    intro i0 j h hcont parent hx
    cases j with
    | zero =>
      simp only [List.getElem?_cons_zero, Option.some.injEq] at h
      subst h
      simp only [pathsItems]
      rcases hcont with ⟨f, hf⟩ | ⟨i, hi⟩
      · subst hf
        exact List.mem_append_left _ (by simpa using hx)
      · subst hi
        exact List.mem_append_left _ (by simpa using hx)
    | succ n =>
      simp only [List.getElem?_cons_succ] at h
      simp only [pathsItems]
      refine List.mem_append_right _ (ih (i0 + 1) n h hcont parent ?_)
      have harith : i0 + 1 + n = i0 + (n + 1) := by omega
      rw [harith]
      exact hx

mutual

/-- Soundness half of the C7 characterization: every collected path is the
rendering of a mapping-entry path. -/
theorem pathsSound : ∀ (data : Json), wfJson data = true →
    ∀ (parent p : String), p ∈ get_all_key_paths data parent →
    ∃ P, MappingEntryPath data P ∧ p = renderPath parent P
  | .obj fields, hwf, parent, p, hp => by
    simp only [wfJson, Bool.and_eq_true] at hwf
    have hff := keysNodup_findField fields hwf.1
    exact pathsSoundFields fields fields hff hwf.2 parent p
      (by simpa [get_all_key_paths] using hp)
  | .arr items, hwf, parent, p, hp => by
    simp only [wfJson] at hwf
    exact pathsSoundItems items items 0 (List.drop_zero items) hwf parent p
      (by simpa [get_all_key_paths] using hp)
  | .str s, _, parent, p, hp => by simp [get_all_key_paths] at hp
  | .num n, _, parent, p, hp => by simp [get_all_key_paths] at hp
  | .bool b, _, parent, p, hp => by simp [get_all_key_paths] at hp
  | .null, _, parent, p, hp => by simp [get_all_key_paths] at hp

theorem pathsSoundFields :
    ∀ (sub fields : List (String × Json)),
    (∀ kv ∈ sub, findField fields kv.1 = some kv.2) → wfFields sub = true →
    ∀ (parent p : String), p ∈ pathsFields sub parent →
    ∃ P, MappingEntryPath (.obj fields) P ∧ p = renderPath parent P
  | [], fields, _, _, parent, p, hp => by simp [pathsFields] at hp
  | (k, v) :: rest, fields, hsub, hwf, parent, p, hp => by
    simp only [wfFields, Bool.and_eq_true] at hwf
    have hk := hsub (k, v) (List.mem_cons_self _ _)
    simp only [pathsFields, List.mem_append, List.mem_cons] at hp
    rcases hp with (heq | hinner) | hrest
    · exact ⟨[.key k], .keyHere hk, heq⟩
    · cases v with
      | obj f2 =>
        obtain ⟨P2, hP2, hp2⟩ := pathsSound (.obj f2) hwf.1 _ p hinner
        exact ⟨.key k :: P2, .keyThere hk hP2, hp2⟩
      | arr i2 =>
        obtain ⟨P2, hP2, hp2⟩ := pathsSound (.arr i2) hwf.1 _ p hinner
        exact ⟨.key k :: P2, .keyThere hk hP2, hp2⟩
      | str s => simp at hinner
      | num n => simp at hinner
      | bool b => simp at hinner
      | null => simp at hinner
    · exact pathsSoundFields rest fields
        (fun kv h => hsub kv (List.mem_cons_of_mem _ h)) hwf.2 parent p hrest

theorem pathsSoundItems :
    ∀ (sub items : List Json) (i0 : Nat),
    items.drop i0 = sub → wfItems sub = true →
    ∀ (parent p : String), p ∈ pathsItems sub i0 parent →
    ∃ P, MappingEntryPath (.arr items) P ∧ p = renderPath parent P
  | [], items, i0, _, _, parent, p, hp => by simp [pathsItems] at hp
  | x :: rest, items, i0, hdrop, hwf, parent, p, hp => by
    simp only [wfItems, Bool.and_eq_true] at hwf
    have hx : items[i0]? = some x := by
      have hd := List.getElem?_drop items i0 0
      rw [hdrop] at hd
      simpa using hd.symm
    have hrest : items.drop (i0 + 1) = rest := by
      have hdd : items.drop (i0 + 1) = (items.drop i0).drop 1 := by
        rw [List.drop_drop]
      rw [hdd, hdrop]
      rfl
    simp only [pathsItems, List.mem_append] at hp
    rcases hp with hinner | hrestm
    · cases x with
      | obj f2 =>
        obtain ⟨P2, hP2, hp2⟩ := pathsSound (.obj f2) hwf.1 _ p hinner
        exact ⟨.idx i0 :: P2, .idxThere hx hP2, hp2⟩
      | arr i2 =>
        obtain ⟨P2, hP2, hp2⟩ := pathsSound (.arr i2) hwf.1 _ p hinner
        exact ⟨.idx i0 :: P2, .idxThere hx hP2, hp2⟩
      | str s => simp at hinner
      | num n => simp at hinner
      | bool b => simp at hinner
      | null => simp at hinner
    · exact pathsSoundItems rest items (i0 + 1) hrest hwf.2 parent p hrestm

end

/-- Completeness half of the C7 characterization: the rendering of every
mapping-entry path is collected. -/
theorem pathsComplete {data : Json} {P : List Seg}
    (hP : MappingEntryPath data P) :
    wfJson data = true →
    ∀ parent, renderPath parent P ∈ get_all_key_paths data parent := by
  induction hP with
  | keyHere h =>
    intro hwf parent
    simp only [get_all_key_paths, renderPath, renderSeg]
    exact pathsFields_mem_cur (findField_mem h) parent
  | keyThere h hP ih =>
    intro hwf parent
    simp only [wfJson, Bool.and_eq_true] at hwf
    have hmem := findField_mem h
    have hwv := wfFields_mem hwf.2 hmem
    simp only [get_all_key_paths, renderPath]
    exact pathsFields_mem_inner hmem hP.container parent (ih hwv _)
  | idxThere h hP ih =>
    intro hwf parent
    simp only [wfJson] at hwf
    have hmem := List.getElem?_mem h
    have hwv := wfItems_mem hwf hmem
    simp only [get_all_key_paths, renderPath, renderSeg]
    have := pathsItems_mem_inner 0 _ (by simpa using h) hP.container parent
      (by simpa using ih hwv _)
    simpa using this

/-- C7 (amended): for every well-formed tree, `get_all_key_paths` collects
exactly the rendered paths of the mapping entries reachable from the root —
both container and leaf entry values — while sequence elements contribute
no path of their own (their descendants appear with the bracketed index in
the prefix); every collected path addresses an actual node. -/
theorem get_all_key_paths_characterization (data : Json)
    (hwf : wfJson data = true) :
    (∀ parent p, p ∈ get_all_key_paths data parent ↔
      ∃ P, MappingEntryPath data P ∧ p = renderPath parent P) ∧
    (∀ P, MappingEntryPath data P → ∃ node, getAt data P = some node) := by
  constructor
  · intro parent p
    constructor
    · exact pathsSound data hwf parent p
    · rintro ⟨P, hP, rfl⟩
      exact pathsComplete hP hwf parent
  · intro P hP
    exact hP.getAt_isSome

/-- Witness for C7 (amended) at a concrete nested tree. -/
theorem get_all_key_paths_characterization_witness :
    wfJson (Json.obj [("a", .arr [.obj [("b", .str "x")]])]) = true ∧
    ((∀ parent p,
      p ∈ get_all_key_paths (Json.obj [("a", .arr [.obj [("b", .str "x")]])]) parent ↔
      ∃ P, MappingEntryPath (Json.obj [("a", .arr [.obj [("b", .str "x")]])]) P ∧
        p = renderPath parent P) ∧
    (∀ P, MappingEntryPath (Json.obj [("a", .arr [.obj [("b", .str "x")]])]) P →
      ∃ node, getAt (Json.obj [("a", .arr [.obj [("b", .str "x")]])]) P = some node)) :=
  ⟨rfl, get_all_key_paths_characterization _ rfl⟩

/-! ## C8: the untranslated-leaf detector -/

/-- The path accumulated by the lockstep walk along a list of keys. -/
def renderKeys : String → List String → String
  | path, [] => path
  | path, k :: ks => renderKeys (if path = "" then k else path ++ "." ++ k) ks

/-- `StrPairAt A B ks f e`: walking A and B in lockstep along the mapping
keys `ks` (resolved by first-match lookup on both sides) reaches the string
leaves `f` in A and `e` in B. -/
inductive StrPairAt : Json → Json → List String → String → String → Prop
  | here (f e : String) : StrPairAt (.str f) (.str e) [] f e
  | there {fa fb : List (String × Json)} {k : String} {va vb : Json}
      {ks : List String} {f e : String}
      (ha : findField fa k = some va) (hb : findField fb k = some vb)
      (hrec : StrPairAt va vb ks f e) :
      StrPairAt (.obj fa) (.obj fb) (k :: ks) f e

/-- C8 counterexample: the identical string leaf "My Dashboard page" is
longer than 3 characters and is not a member of the allow-list, yet
`verify_values` emits no warning for it, because the allow-list literal
"Dashboard" occurs as a substring — the code does substring matching, not
exact full-leaf-value matching. -/
theorem verify_values_counterexample :
    verify_values (.obj [("k", .str "My Dashboard page")])
      (.obj [("k", .str "My Dashboard page")]) "" = [] ∧
    ("My Dashboard page" ∉ invariant_values) ∧
    ("My Dashboard page" : String).length > 3 := by
  refine ⟨rfl, by decide, by decide⟩

theorem verifyFields_mem_inner {fa : List (String × Json)} {k : String}
    {va vb : Json} {x : String} (h : (k, va) ∈ fa) {enf : List (String × Json)}
    (hb : findField enf k = some vb) (path : String)
    (hx : x ∈ verify_values va vb (if path = "" then k else path ++ "." ++ k)) :
    x ∈ verifyFields fa enf path := by
  induction fa with
  | nil => exact absurd h (List.not_mem_nil _)
  | cons kv rest ih =>
    obtain ⟨k1, v1⟩ := kv
    rcases List.mem_cons.mp h with heq | hmem
    · cases heq
      simp only [verifyFields, hb]
      exact List.mem_append_left _ hx
    · simp only [verifyFields]
      exact List.mem_append_right _ (ih hmem)

/-- Completeness half of C8: every qualifying identical string pair is
flagged. -/
theorem verifyComplete {A B : Json} {ks : List String} {f e : String}
    (h : StrPairAt A B ks f e) :
    f = e → f.length > 3 →
    (∀ x ∈ invariant_values, strContains f x = false) →
    ∀ path, untranslatedMsg (renderKeys path ks) f ∈ verify_values A B path := by
  induction h with
  | here f e =>
    intro hfe hlen hallow path
    subst hfe
    have hcond : f = f ∧ f.length > 3 ∧
        ¬ (invariant_values.any (fun x => strContains f x)) = true := by
      refine ⟨rfl, hlen, ?_⟩
      intro hany
      rw [List.any_eq_true] at hany
      obtain ⟨x, hx, hcx⟩ := hany
      rw [hallow x hx] at hcx
      simp at hcx
    simp only [verify_values, renderKeys]
    rw [if_pos (⟨trivial, hcond.2⟩ : True ∧ f.length > 3 ∧
      ¬ (invariant_values.any (fun x => strContains f x)) = true)]
    exact List.mem_singleton.mpr rfl
  | @there fa fb k va vb ks2 f2 e2 ha hb hrec ih =>
    intro hfe hlen hallow path
    simp only [verify_values, renderKeys]
    exact verifyFields_mem_inner (findField_mem ha) hb path
      (ih hfe hlen hallow _)

mutual

/-- Soundness half of C8: every emitted warning comes from an identical,
long-enough, allow-list-free string pair reached in lockstep. -/
theorem verifySound : ∀ (A B : Json), wfJson A = true →
    ∀ (path w : String), w ∈ verify_values A B path →
    ∃ ks f, StrPairAt A B ks f f ∧ f.length > 3 ∧
      (∀ x ∈ invariant_values, strContains f x = false) ∧
      w = untranslatedMsg (renderKeys path ks) f
  | .obj fa, B, hwf, path, w, hw => by
    cases B with
    | obj fb =>
      simp only [wfJson, Bool.and_eq_true] at hwf
      have hff := keysNodup_findField fa hwf.1
      exact verifySoundFields fa fa fb hff hwf.2 path w
        (by simpa [verify_values] using hw)
    | str s => simp [verify_values] at hw
    | num n => simp [verify_values] at hw
    | bool b => simp [verify_values] at hw
    | null => simp [verify_values] at hw
    | arr i => simp [verify_values] at hw
  | .str f0, B, hwf, path, w, hw => by
    cases B with
    | str e0 =>
      simp only [verify_values] at hw
      rcases Decidable.em
          (f0 = e0 ∧ f0.length > 3 ∧
            ¬ (invariant_values.any (fun x => strContains f0 x)) = true) with hc | hc
      · rw [if_pos hc] at hw
        obtain ⟨hfe, hlen, hallow⟩ := hc
        subst hfe
        refine ⟨[], f0, .here f0 f0, hlen, ?_, by simpa [renderKeys] using hw⟩
        intro x hx
        by_contra hcon
        apply hallow
        simp only [List.any_eq_true]
        exact ⟨x, hx, by revert hcon; cases strContains f0 x <;> simp⟩
      · rw [if_neg hc] at hw
        exact absurd hw (List.not_mem_nil _)
    | obj fb => simp [verify_values] at hw
    | num n => simp [verify_values] at hw
    | bool b => simp [verify_values] at hw
    | null => simp [verify_values] at hw
    | arr i => simp [verify_values] at hw
  | .num n, B, hwf, path, w, hw => by cases B <;> simp [verify_values] at hw
  | .bool b, B, hwf, path, w, hw => by cases B <;> simp [verify_values] at hw
  | .null, B, hwf, path, w, hw => by cases B <;> simp [verify_values] at hw
  | .arr i, B, hwf, path, w, hw => by cases B <;> simp [verify_values] at hw

theorem verifySoundFields :
    ∀ (sub fa fb : List (String × Json)),
    (∀ kv ∈ sub, findField fa kv.1 = some kv.2) → wfFields sub = true →
    ∀ (path w : String), w ∈ verifyFields sub fb path →
    ∃ ks f, StrPairAt (.obj fa) (.obj fb) ks f f ∧ f.length > 3 ∧
      (∀ x ∈ invariant_values, strContains f x = false) ∧
      w = untranslatedMsg (renderKeys path ks) f
  | [], fa, fb, _, _, path, w, hw => by simp [verifyFields] at hw
  | (k, va) :: rest, fa, fb, hsub, hwf, path, w, hw => by
    simp only [wfFields, Bool.and_eq_true] at hwf
    have hk := hsub (k, va) (List.mem_cons_self _ _)
    simp only [verifyFields] at hw
    rcases hfb : findField fb k with _ | vb
    · rw [hfb] at hw
      simp only [List.nil_append] at hw
      exact verifySoundFields rest fa fb
        (fun kv h => hsub kv (List.mem_cons_of_mem _ h)) hwf.2 path w hw
    · rw [hfb] at hw
      rcases List.mem_append.mp hw with hinner | hrest
      · obtain ⟨ks2, f2, hpair, hlen, hallow, hmsg⟩ :=
          verifySound va vb hwf.1 _ w hinner
        exact ⟨k :: ks2, f2, .there hk hfb hpair, hlen, hallow,
          by simpa [renderKeys] using hmsg⟩
      · exact verifySoundFields rest fa fb
          (fun kv h => hsub kv (List.mem_cons_of_mem _ h)) hwf.2 path w hrest

end

/-- C8 (amended): for every well-formed tree A and any tree B,
`verify_values` walks A and B in lockstep over keys present in both at
every mapping level (resolved by first-match lookup) and emits exactly one
warning for every pair of byte-identical string leaves longer than 3
characters whose value has no allow-list literal occurring as a substring
(substring matching, not exact full-leaf-value matching); non-string leaf
pairs are never flagged (warnings only arise from string pairs). -/
theorem verify_values_characterization (A B : Json) (hwf : wfJson A = true) :
    ∀ (path w : String),
    w ∈ verify_values A B path ↔
    ∃ ks f, StrPairAt A B ks f f ∧ f.length > 3 ∧
      (∀ x ∈ invariant_values, strContains f x = false) ∧
      w = untranslatedMsg (renderKeys path ks) f := by
  intro path w
  constructor
  · exact verifySound A B hwf path w
  · rintro ⟨ks, f, hpair, hlen, hallow, rfl⟩
    exact verifyComplete hpair rfl hlen hallow path

/-- Witness for C8 (amended) on the scenario-3 tree. -/
theorem verify_values_characterization_witness :
    wfJson (Json.obj [("msg", .str "Bonjour")]) = true ∧
    (∀ (path w : String),
      w ∈ verify_values (Json.obj [("msg", .str "Bonjour")])
        (Json.obj [("msg", .str "Bonjour")]) path ↔
      ∃ ks f, StrPairAt (Json.obj [("msg", .str "Bonjour")])
          (Json.obj [("msg", .str "Bonjour")]) ks f f ∧ f.length > 3 ∧
        (∀ x ∈ invariant_values, strContains f x = false) ∧
        w = untranslatedMsg (renderKeys path ks) f) :=
  ⟨rfl, verify_values_characterization _ _ rfl⟩

/-! ## C2: the placeholder guard.

The round-trip proof tracks the protected string as a token list (literal
chunks of the original text interleaved with markers), shows that each
`str.replace` of the protect loop and of the restore loop acts tokenwise,
and concludes by substituting every marker back.  -/

theorem replaceAll_nil (pat rep : List Char) : replaceAll pat rep [] = [] := by
  rw [replaceAll]

theorem suffix_cons_self {l : List Char} (c : Char) : l <:+ c :: l :=
  ⟨[c], rfl⟩

theorem replaceAll_no_occur (pat rep : List Char) :
    ∀ (s : List Char), ¬ pat <:+: s → replaceAll pat rep s = s
  | [], _ => replaceAll_nil pat rep
  | c :: rest, h => by
    have hcond : ¬ (pat ≠ [] ∧ pat.isPrefixOf (c :: rest)) := by
      rintro ⟨hne, hpre⟩
      exact h (List.IsPrefix.isInfix (List.isPrefixOf_iff_prefix.mp hpre))
    rw [replaceAll, if_neg hcond,
      replaceAll_no_occur pat rep rest (fun hi => h (List.infix_cons hi))]
termination_by s => s.length

theorem replaceAll_self (rep : List Char) :
    ∀ (pat : List Char), pat ≠ [] → replaceAll pat rep pat = rep
  | [], h => absurd rfl h
  | c :: rest, _ => by
    rw [replaceAll, if_pos ⟨List.cons_ne_nil c rest,
      List.isPrefixOf_iff_prefix.mpr (List.prefix_refl _)⟩]
    rw [List.drop_length, replaceAll_nil, List.append_nil]

/-- No occurrence of `pat` straddles the boundary between `a` and `b`. -/
def NoCross (pat a b : List Char) : Prop :=
  ∀ s1 s2, s1 ++ s2 = pat → s1 ≠ [] → s2 ≠ [] → ¬ (s1 <:+ a ∧ s2 <+: b)

theorem noCross_of_suffix {pat a2 a b : List Char} (hsub : a2 <:+ a)
    (h : NoCross pat a b) : NoCross pat a2 b :=
  fun s1 s2 he h1 h2 hc => h s1 s2 he h1 h2 ⟨hc.1.trans hsub, hc.2⟩

theorem replaceAll_append (pat rep : List Char) (hne : pat ≠ []) :
    ∀ (a b : List Char), NoCross pat a b →
    replaceAll pat rep (a ++ b) = replaceAll pat rep a ++ replaceAll pat rep b
  | [], b, _ => by rw [List.nil_append, replaceAll_nil, List.nil_append]
  | c :: a2, b, hnc => by
    by_cases hpre : pat.isPrefixOf (c :: a2 ++ b)
    · have hpre1 : pat <+: (c :: a2) ++ b := List.isPrefixOf_iff_prefix.mp hpre
      by_cases hlen : pat.length ≤ (c :: a2).length
      · have hpre2 : pat <+: c :: a2 :=
          List.prefix_of_prefix_length_le hpre1 (List.prefix_append (c :: a2) b)
            hlen
        have hpreB : pat.isPrefixOf (c :: a2) :=
          List.isPrefixOf_iff_prefix.mpr hpre2
        show replaceAll pat rep (c :: (a2 ++ b)) = _
        rw [replaceAll, if_pos ⟨hne, hpre⟩]
        conv_rhs => rw [replaceAll, if_pos ⟨hne, hpreB⟩]
        rw [show (c :: (a2 ++ b)) = (c :: a2) ++ b from rfl,
          List.drop_append_of_le_length hlen,
          replaceAll_append pat rep hne ((c :: a2).drop pat.length) b
            (noCross_of_suffix (List.drop_suffix _ _) hnc),
          List.append_assoc]
      · exfalso
        push_neg at hlen
        have haP : (c :: a2) <+: pat :=
          List.prefix_of_prefix_length_le (List.prefix_append _ b) hpre1
            (by omega)
        obtain ⟨s2, hs2⟩ := haP
        have hs2ne : s2 ≠ [] := by
          intro h0
          rw [h0, List.append_nil] at hs2
          rw [← hs2] at hlen
          omega
        have hs2pre : s2 <+: b := by
          rw [← hs2] at hpre1
          exact (List.prefix_append_right_inj (c :: a2)).mp hpre1
        exact hnc (c :: a2) s2 hs2 (List.cons_ne_nil _ _) hs2ne
          ⟨List.suffix_refl _, hs2pre⟩
    · have hpreA : ¬ pat.isPrefixOf (c :: a2) := by
        intro hp
        exact hpre (List.isPrefixOf_iff_prefix.mpr
          ((List.isPrefixOf_iff_prefix.mp hp).trans (List.prefix_append _ b)))
      show replaceAll pat rep (c :: (a2 ++ b)) = _
      rw [replaceAll, if_neg (fun hc => hpre hc.2)]
      conv_rhs => rw [replaceAll, if_neg (fun hc => hpreA hc.2)]
      rw [replaceAll_append pat rep hne a2 b
        (noCross_of_suffix (suffix_cons_self c) hnc)]
      rfl
termination_by a b h => a.length
decreasing_by
  all_goals simp only [List.length_drop, List.length_cons]
  all_goals
    first
      | omega
      | (have hp : 1 ≤ pat.length := by
           cases pat with
           | nil => exact absurd rfl hne
           | cons q l => simp
         omega)

theorem head_of_prefix_eq {s w : List Char} (h : s <+: w) (hne : s ≠ []) :
    s.head? = w.head? := by
  obtain ⟨t, rfl⟩ := h
  cases s with
  | nil => exact absurd rfl hne
  | cons c s2 => rfl

theorem mem_of_suffix_ends {u s1 : List Char} {c : Char}
    (h : s1 <:+ u ++ [c]) (hne : s1 ≠ []) : c ∈ s1 := by
  obtain ⟨t, ht⟩ := h
  have h1 : s1.getLast? = some c := by
    have h2 : (t ++ s1).getLast? = (u ++ [c]).getLast? := by rw [ht]
    rw [List.getLast?_append_of_ne_nil t hne, List.getLast?_concat] at h2
    exact h2
  exact List.mem_of_mem_getLast? h1

theorem mem_of_prefix_mem {s1 w : List Char} {c : Char} (h : s1 <+: w)
    (hc : c ∈ s1) : c ∈ w :=
  h.isInfix.mem hc

/-- The segments of `s` between the leftmost non-overlapping occurrences of
`pat` (the decomposition underlying `str.replace`). -/
def chunksOf (pat : List Char) : List Char → List (List Char)
  | [] => [[]]
  | c :: rest =>
    if pat ≠ [] ∧ pat.isPrefixOf (c :: rest) then
      [] :: chunksOf pat ((c :: rest).drop pat.length)
    else
      match chunksOf pat rest with
      | [] => [[c]]
      | s :: ss => (c :: s) :: ss
termination_by s => s.length
decreasing_by
  all_goals simp only [List.length_drop, List.length_cons]
  · rename_i hcond
    have hp : pat.length ≥ 1 := by
      cases pat with
      | nil => exact absurd rfl hcond.1
      | cons a l => simp
    omega
  · omega

theorem chunksOf_ne_nil (pat : List Char) (s : List Char) :
    chunksOf pat s ≠ [] := by
  cases s with
  | nil => rw [chunksOf]; exact List.cons_ne_nil _ _
  | cons c rest =>
    rw [chunksOf]
    split
    · exact List.cons_ne_nil _ _
    · split <;> exact List.cons_ne_nil _ _

/-- Join a list of segments with a separator between consecutive segments. -/
def joinSep (sep : List Char) : List (List Char) → List Char
  | [] => []
  | [s] => s
  | s :: t :: rest => s ++ sep ++ joinSep sep (t :: rest)

theorem joinSep_cons_cons (sep s : List Char) (ss : List (List Char))
    (c : Char) : joinSep sep ((c :: s) :: ss) = c :: joinSep sep (s :: ss) := by
  cases ss with
  | nil => rfl
  | cons t rest => rfl

theorem joinSep_chunksOf (pat : List Char) (hne : pat ≠ []) :
    ∀ s, joinSep pat (chunksOf pat s) = s
  | [] => by rw [chunksOf]; rfl
  | c :: rest => by
    rw [chunksOf]
    split
    · rename_i hcond
      have hpre : pat <+: c :: rest :=
        List.isPrefixOf_iff_prefix.mp hcond.2
      rcases hcs : chunksOf pat ((c :: rest).drop pat.length) with _ | ⟨s, ss⟩
      · exact absurd hcs (chunksOf_ne_nil pat _)
      · have hrec := joinSep_chunksOf pat hne ((c :: rest).drop pat.length)
        rw [hcs] at hrec
        show [] ++ pat ++ joinSep pat (s :: ss) = c :: rest
        rw [List.nil_append, hrec]
        exact List.prefix_iff_eq_append.mp hpre
    · rcases hcs : chunksOf pat rest with _ | ⟨s, ss⟩
      · exact absurd hcs (chunksOf_ne_nil pat _)
      · have hrec := joinSep_chunksOf pat hne rest
        rw [hcs] at hrec
        show joinSep pat ((c :: s) :: ss) = c :: rest
        rw [joinSep_cons_cons, hrec]
termination_by s => s.length
decreasing_by
  all_goals simp only [List.length_drop, List.length_cons]
  all_goals
    first
      | omega
      | (have hp : pat.length ≥ 1 := by
           cases pat with
           | nil => exact absurd rfl hne
           | cons q l => simp
         omega)

theorem replaceAll_eq_joinSep (pat rep : List Char) (hne : pat ≠ []) :
    ∀ s, replaceAll pat rep s = joinSep rep (chunksOf pat s)
  | [] => by rw [replaceAll_nil, chunksOf]; rfl
  | c :: rest => by
    rw [replaceAll, chunksOf]
    split
    · rcases hcs : chunksOf pat ((c :: rest).drop pat.length) with _ | ⟨s, ss⟩
      · exact absurd hcs (chunksOf_ne_nil pat _)
      · have hrec := replaceAll_eq_joinSep pat rep hne ((c :: rest).drop pat.length)
        rw [hcs] at hrec
        rw [hrec]
        show rep ++ joinSep rep (s :: ss) = [] ++ rep ++ joinSep rep (s :: ss)
        rw [List.nil_append]
    · rcases hcs : chunksOf pat rest with _ | ⟨s, ss⟩
      · exact absurd hcs (chunksOf_ne_nil pat _)
      · have hrec := replaceAll_eq_joinSep pat rep hne rest
        rw [hcs] at hrec
        rw [hrec]
        show c :: joinSep rep (s :: ss) = joinSep rep ((c :: s) :: ss)
        rw [joinSep_cons_cons]
termination_by s => s.length
decreasing_by
  all_goals simp only [List.length_drop, List.length_cons]
  all_goals
    first
      | omega
      | (have hp : pat.length ≥ 1 := by
           cases pat with
           | nil => exact absurd rfl hne
           | cons q l => simp
         omega)

/-- Every segment is an infix of the input, and the first segment is a
prefix. -/
theorem chunksOf_infix_spec (pat : List Char) (hne : pat ≠ []) :
    ∀ s, (∀ chunk ∈ chunksOf pat s, chunk <:+: s) ∧
      (∀ h0 tl, chunksOf pat s = h0 :: tl → h0 <+: s)
  | [] => by
    rw [chunksOf]
    constructor
    · intro chunk h
      rcases List.mem_singleton.mp h with rfl
      exact List.infix_refl _
    · intro h0 tl h
      cases h
      exact List.prefix_refl _
  | c :: rest => by
    rw [chunksOf]
    split
    · rename_i hcond
      have hrec := chunksOf_infix_spec pat hne ((c :: rest).drop pat.length)
      have hds : (c :: rest).drop pat.length <:+ c :: rest :=
        List.drop_suffix _ _
      constructor
      · intro chunk h
        rcases List.mem_cons.mp h with rfl | h2
        · exact List.nil_infix
        · exact (hrec.1 chunk h2).trans hds.isInfix
      · intro h0 tl h
        cases h
        exact List.nil_prefix
    · rcases hcs : chunksOf pat rest with _ | ⟨s, ss⟩
      · exact absurd hcs (chunksOf_ne_nil pat _)
      · have hrec := chunksOf_infix_spec pat hne rest
        rw [hcs] at hrec
        have hsp : s <+: rest := hrec.2 s ss rfl
        constructor
        · intro chunk h
          rcases List.mem_cons.mp h with rfl | h2
          · exact (List.cons_prefix_cons.mpr ⟨rfl, hsp⟩).isInfix
          · exact List.infix_cons (hrec.1 chunk (List.mem_cons_of_mem _ h2))
        · intro h0 tl h
          rw [List.cons.injEq] at h
          rw [← h.1]
          exact List.cons_prefix_cons.mpr ⟨rfl, hsp⟩
termination_by s => s.length
decreasing_by
  all_goals simp only [List.length_drop, List.length_cons]
  all_goals
    first
      | omega
      | (have hp : pat.length ≥ 1 := by
           cases pat with
           | nil => exact absurd rfl hne
           | cons q l => simp
         omega)

/-- Ghost tokens: literal chunks of the original text and inserted markers. -/
inductive Tok where
  | lit : List Char → Tok
  | mark : Nat → Tok
deriving Repr, DecidableEq

/-- Rendering of one token into the actual string. -/
def Tok.flat : Tok → List Char
  | .lit s => s
  | .mark i => marker i

/-- Rendering of a token list. -/
def flatT : List Tok → List Char
  | [] => []
  | t :: ts => t.flat ++ flatT ts

/-- Rendering with every marker `i` replaced by the `i`-th placeholder. -/
def substAll (phs : List (List Char)) : List Tok → List Char
  | [] => []
  | .lit s :: ts => s ++ substAll phs ts
  | .mark i :: ts => phs.getD i [] ++ substAll phs ts

theorem flatT_append (A B : List Tok) :
    flatT (A ++ B) = flatT A ++ flatT B := by
  induction A with
  | nil => rfl
  | cons t ts ih => simp [flatT, ih]

theorem substAll_append (phs : List (List Char)) (A B : List Tok) :
    substAll phs (A ++ B) = substAll phs A ++ substAll phs B := by
  induction A with
  | nil => rfl
  | cons t ts ih => cases t <;> simp [substAll, ih]

/-- Alternating token shape: a literal chunk, then pairs of a separator
token and a literal chunk. -/
inductive Alt (L : List Char → Prop) (XP : Tok → Prop) : List Tok → Prop
  | single {s : List Char} (hs : L s) : Alt L XP [.lit s]
  | cons {s : List Char} {X : Tok} {ts : List Tok} (hs : L s) (hX : XP X)
      (hts : Alt L XP ts) : Alt L XP (.lit s :: X :: ts)

theorem Alt.mono {L : List Char → Prop} {XP XP2 : Tok → Prop} {ts : List Tok}
    (h : Alt L XP ts) (himp : ∀ X, XP X → XP2 X) : Alt L XP2 ts := by
  induction h with
  | single hs => exact .single hs
  | cons hs hX hts ih => exact .cons hs (himp _ hX) ih

theorem Alt.append {L : List Char → Prop} {XP : Tok → Prop}
    {l1 l2 : List Tok} {X : Tok} (h1 : Alt L XP l1) (hX : XP X)
    (h2 : Alt L XP l2) : Alt L XP (l1 ++ X :: l2) := by
  induction h1 with
  | single hs => exact .cons hs hX h2
  | cons hs hX2 hts ih => exact .cons hs hX2 ih

/-- The token form of one literal chunk after one protect replacement:
its segments interleaved with marker `i`. -/
def tokenizeChunks (i : Nat) : List (List Char) → List Tok
  | [] => []
  | [s] => [.lit s]
  | s :: t :: rest => .lit s :: .mark i :: tokenizeChunks i (t :: rest)

theorem flatT_tokenizeChunks (i : Nat) :
    ∀ chunks, flatT (tokenizeChunks i chunks) = joinSep (marker i) chunks
  | [] => rfl
  | [s] => by simp [tokenizeChunks, flatT, Tok.flat, joinSep]
  | s :: t :: rest => by
    have ih := flatT_tokenizeChunks i (t :: rest)
    simp [tokenizeChunks, flatT, Tok.flat, joinSep, ih, List.append_assoc]

theorem substAll_tokenizeChunks (phs : List (List Char)) (i : Nat)
    (ph : List Char) (hph : phs.getD i [] = ph) :
    ∀ chunks, substAll phs (tokenizeChunks i chunks) = joinSep ph chunks
  | [] => rfl
  | [s] => by simp [tokenizeChunks, substAll, joinSep]
  | s :: t :: rest => by
    have ih := substAll_tokenizeChunks phs i ph hph (t :: rest)
    have hph2 : phs[i]?.getD [] = ph := by
      rw [← List.getD_eq_getElem?_getD]
      exact hph
    simp [tokenizeChunks, substAll, joinSep, ih, hph, hph2, List.append_assoc]

theorem Alt_tokenizeChunks {L : List Char → Prop} {XP : Tok → Prop}
    (i : Nat) (hX : XP (.mark i)) :
    ∀ chunks, chunks ≠ [] → (∀ c ∈ chunks, L c) →
    Alt L XP (tokenizeChunks i chunks)
  | [], h, _ => absurd rfl h
  | [s], _, hL => .single (hL s (List.mem_singleton.mpr rfl))
  | s :: t :: rest, _, hL =>
    .cons (hL s (List.mem_cons_self _ _)) hX
      (Alt_tokenizeChunks i hX (t :: rest) (List.cons_ne_nil _ _)
        (fun c hc => hL c (List.mem_cons_of_mem _ hc)))

/-- Token-level effect of one protect replacement. -/
def protStep (ph : List Char) (i : Nat) : List Tok → List Tok
  | [] => []
  | .lit s :: ts => tokenizeChunks i (chunksOf ph s) ++ protStep ph i ts
  | .mark j :: ts => .mark j :: protStep ph i ts

/-- Token-level effect of one restore replacement. -/
def substOneTok (j : Nat) (ph : List Char) : List Tok → List Tok
  | [] => []
  | t :: ts => (if t = .mark j then .lit ph else t) :: substOneTok j ph ts

/-- Iterated protect steps over the remaining placeholders. -/
def protTokLoop : List (List Char) → Nat → List Tok → List Tok
  | [], _, ts => ts
  | ph :: rest, i, ts => protTokLoop rest (i + 1) (protStep ph i ts)

/-- Iterated restore steps over the remaining map entries. -/
def restTokLoop : List (List Char) → Nat → List Tok → List Tok
  | [], _, ts => ts
  | ph :: rest, j, ts => restTokLoop rest (j + 1) (substOneTok j ph ts)

/-- The marker map built by the protect loop, from index `i` on. -/
def mapIdxFrom (i : Nat) : List (List Char) → List (List Char × List Char)
  | [] => []
  | ph :: rest => (marker i, ph) :: mapIdxFrom (i + 1) rest

theorem protectLoop_map : ∀ (rem : List (List Char)) (i : Nat)
    (prot : List Char), (protectLoop rem i prot).2 = mapIdxFrom i rem
  | [], _, _ => rfl
  | ph :: rest, i, prot => by
    simp only [protectLoop, mapIdxFrom]
    rw [protectLoop_map rest (i + 1) _]

/-! Bounded facts about the markers (indices 0..9). -/

theorem marker_brace_free : ∀ j, j < 10 → '{' ∉ marker j ∧ '}' ∉ marker j := by
  decide

theorem marker_length : ∀ j, j < 10 → (marker j).length = 12 := by decide

theorem marker_head : ∀ j, j < 10 → (marker j).head? = some 'P' := by decide

theorem marker_drop_head : ∀ j, j < 10 → ∀ d, d < 12 → 0 < d →
    ((marker j).drop d).head? ≠ some 'P' ∧
    ((marker j).drop d).head? ≠ some '{' := by decide

theorem marker_drop_not_prefix : ∀ m, m < 10 → ∀ j, j < 10 → ∀ d, d < 12 →
    0 < d → ¬ ((marker m).drop d <+: marker j) := by decide

theorem marker_no_occur : ∀ m, m < 10 → ∀ j, j < 10 → m ≠ j →
    ¬ (marker j <:+: marker m) := by decide

theorem placeholderWord_prefix_marker (j : Nat) :
    placeholderWord <+: marker j :=
  ⟨(Nat.repr j).data, rfl⟩

theorem marker_ne_nil (j : Nat) : marker j ≠ [] := by
  intro h
  have : placeholderWord.length + (Nat.repr j).data.length = 0 := by
    have := congrArg List.length h
    simpa [marker] using this
  simp [placeholderWord] at this

theorem dropWhile_head_not {p : Char → Bool} {l : List Char} {d : Char}
    {tl : List Char} (h : l.dropWhile p = d :: tl) : p d = false := by
  have h1 := List.find?_not_eq_head?_dropWhile p l
  rw [h] at h1
  have h2 := List.find?_some h1
  simpa using h2

/-- Every token found by the placeholder scan is an infix of the input and
is a brace-delimited token. -/
theorem findPlaceholders_spec : ∀ (s : List Char),
    ∀ ph ∈ findPlaceholders s, ph <:+: s ∧ ∃ body, ph = '{' :: (body ++ ['}'])
  | [] => by
    intro ph h
    rw [findPlaceholders] at h
    exact absurd h (List.not_mem_nil _)
  | c :: rest => by
    intro ph h
    rw [findPlaceholders.eq_def] at h
    split at h
    next x heq => exact absurd heq (List.cons_ne_nil c rest)
    next x rest2 heq =>
      injection heq with hc hr
      subst hc
      subst hr
      simp only [] at h
      split at h
      · have ih := findPlaceholders_spec rest ph h
        exact ⟨List.infix_cons ih.1, ih.2⟩
      · rename_i hcond
        rcases List.mem_cons.mp h with rfl | h2
        · refine ⟨?_, rest.takeWhile (fun d => d ≠ '}'), rfl⟩
          rcases hdw : rest.dropWhile (fun d => d ≠ '}') with _ | ⟨d, tl⟩
          · exfalso
            apply hcond
            right
            rw [hdw]
            rfl
          · have hd : d = '}' := by
              have := dropWhile_head_not hdw
              simpa using this
            subst hd
            have hsplit : rest = rest.takeWhile (fun d => d ≠ '}')
                ++ '}' :: tl := by
              conv_lhs => rw [← List.takeWhile_append_dropWhile
                (fun d => decide (d ≠ '}')) rest]
              rw [hdw]
            refine List.IsPrefix.isInfix ⟨tl, ?_⟩
            conv_rhs => rw [hsplit]
            simp
        · have ih := findPlaceholders_spec
            ((rest.dropWhile (fun d => d ≠ '}')).tail) ph h2
          have hsuf : (rest.dropWhile (fun d => d ≠ '}')).tail <:+ rest :=
            (List.tail_suffix _).trans (List.dropWhile_suffix _)
          exact ⟨List.infix_cons (ih.1.trans hsuf.isInfix), ih.2⟩
    next x1 c2 rest2 hne heq =>
      injection heq with hc hr
      subst hc
      subst hr
      have ih := findPlaceholders_spec rest ph h
      exact ⟨List.infix_cons ih.1, ih.2⟩
termination_by s => s.length
decreasing_by
  all_goals simp only [List.length_cons]
  all_goals
    first
      | omega
      | (have h1 : (rest.dropWhile (fun d => d ≠ '}')).tail.length
             ≤ (rest.dropWhile (fun d => d ≠ '}')).length := by
           cases rest.dropWhile (fun d => d ≠ '}') <;> simp
         have h2 : (rest.dropWhile (fun d => d ≠ '}')).length
             ≤ rest.length := (List.dropWhile_sublist _).length_le
         omega)

theorem prefix_append_cases {s a b : List Char} (h : s <+: a ++ b) :
    s <+: a ∨ a <+: s := by
  by_cases hl : s.length ≤ a.length
  · exact Or.inl (List.prefix_of_prefix_length_le h (List.prefix_append a b) hl)
  · exact Or.inr (List.prefix_of_prefix_length_le (List.prefix_append a b) h
      (by omega))

theorem head?_append_left {a b : List Char} (ha : a ≠ []) :
    (a ++ b).head? = a.head? := by
  cases a with
  | nil => exact absurd rfl ha
  | cons c t => rfl

theorem append_eq_drop {s1 s2 pat : List Char} (h : s1 ++ s2 = pat) :
    s2 = pat.drop s1.length := by
  rw [← h, List.drop_left]

theorem suffix_eq_drop {s1 w : List Char} (h : s1 <:+ w) :
    s1 = w.drop (w.length - s1.length) := by
  obtain ⟨t, rfl⟩ := h
  have hlen : (t ++ s1).length - s1.length = t.length := by
    simp [List.length_append]
  rw [hlen, List.drop_left]

theorem shape_mem_lbrace {p : List Char} (hs : ∃ body, p = '{' :: (body ++ ['}'])) :
    '{' ∈ p := by
  obtain ⟨body, rfl⟩ := hs
  exact List.mem_cons_self _ _

theorem shape_ne_nil {p : List Char} (hs : ∃ body, p = '{' :: (body ++ ['}'])) :
    p ≠ [] := by
  obtain ⟨body, rfl⟩ := hs
  exact List.cons_ne_nil _ _

theorem shape_head {p : List Char} (hs : ∃ body, p = '{' :: (body ++ ['}'])) :
    p.head? = some '{' := by
  obtain ⟨body, rfl⟩ := hs
  rfl

theorem shape_suffix_mem {p s1 : List Char}
    (hs : ∃ body, p = '{' :: (body ++ ['}'])) (h : s1 <:+ p) (hne : s1 ≠ []) :
    '}' ∈ s1 := by
  obtain ⟨body, rfl⟩ := hs
  exact @mem_of_suffix_ends ('{' :: body) s1 '}' h hne

/-- Literal chunks are infixes of the original text. -/
def LitOf (text s : List Char) : Prop := s <:+: text

/-- Marker tokens with index below `n`. -/
def XPk (n : Nat) (X : Tok) : Prop := ∃ m, X = .mark m ∧ m < n

/-- X-position tokens during the restore phase: markers with index in
`[lo, hi)` or already-restored placeholder chunks. -/
def XRng (text : List Char) (lo hi : Nat) (X : Tok) : Prop :=
  (∃ m, X = .mark m ∧ lo ≤ m ∧ m < hi) ∨
  (∃ p, X = .lit p ∧ p <:+: text ∧ ∃ body, p = '{' :: (body ++ ['}']))

/-- One protect replacement acts tokenwise on an alternating token list. -/
theorem protStep_flat (text ph : List Char) (i n : Nat) (hn : n ≤ 10)
    (hshape : ∃ body, ph = '{' :: (body ++ ['}']))
    (hinf : ph <:+: text) (hP : ¬ placeholderWord <:+: text) :
    ∀ ts, Alt (LitOf text) (XPk n) ts →
    replaceAll ph (marker i) (flatT ts) = flatT (protStep ph i ts) := by
  have hne : ph ≠ [] := shape_ne_nil hshape
  intro ts hAlt
  induction hAlt with
  | @single s hs =>
    simp only [flatT, Tok.flat, protStep, List.append_nil]
    rw [replaceAll_eq_joinSep ph (marker i) hne s, flatT_tokenizeChunks]
  | @cons s X ts hs hX hts ih =>
    obtain ⟨m, rfl, hm⟩ := hX
    have hm10 : m < 10 := lt_of_lt_of_le hm hn
    have hnc1 : NoCross ph s (marker m ++ flatT ts) := by
      rintro s1 s2 hpat h1 h2 ⟨hsub, hpre⟩
      have hs2suf : s2 <:+ ph := ⟨s1, hpat⟩
      have hrb : '}' ∈ s2 := shape_suffix_mem hshape hs2suf h2
      rcases prefix_append_cases hpre with hc | hc
      · exact (marker_brace_free m hm10).2 (mem_of_prefix_mem hc hrb)
      · exact hP (((placeholderWord_prefix_marker m).isInfix.trans
          (hc.isInfix.trans hs2suf.isInfix)).trans hinf)
    have hnc2 : NoCross ph (marker m) (flatT ts) := by
      rintro s1 s2 hpat h1 h2 ⟨hsub, hpre⟩
      have hs1pre : s1 <+: ph := ⟨s2, hpat⟩
      have hhead : s1.head? = some '{' := by
        rw [head_of_prefix_eq hs1pre h1, shape_head hshape]
      have hmem : '{' ∈ s1 := by
        cases s1 with
        | nil => exact absurd rfl h1
        | cons a t =>
          simp only [List.head?_cons, Option.some.injEq] at hhead
          rw [hhead]
          exact List.mem_cons_self _ _
      exact (marker_brace_free m hm10).1 (hsub.isInfix.mem hmem)
    have hnotin : ¬ ph <:+: marker m := fun hc =>
      (marker_brace_free m hm10).1 (hc.mem (shape_mem_lbrace hshape))
    simp only [flatT, Tok.flat]
    rw [replaceAll_append ph (marker i) hne s _ hnc1,
      replaceAll_append ph (marker i) hne (marker m) _ hnc2,
      replaceAll_no_occur ph (marker i) (marker m) hnotin, ih,
      replaceAll_eq_joinSep ph (marker i) hne s, ← flatT_tokenizeChunks]
    simp only [protStep, flatT_append, flatT, Tok.flat, List.append_assoc]

/-- One restore replacement acts tokenwise on an alternating token list. -/
theorem substOneTok_flat (text : List Char) (j hi : Nat) (hj : j < 10)
    (hhi : hi ≤ 10) (ph : List Char) (hP : ¬ placeholderWord <:+: text) :
    ∀ (lo : Nat) (ts : List Tok), Alt (LitOf text) (XRng text lo hi) ts →
    replaceAll (marker j) ph (flatT ts) = flatT (substOneTok j ph ts) := by
  have hmne : marker j ≠ [] := marker_ne_nil j
  have hnotext : ∀ s : List Char, s <:+: text → ¬ marker j <:+: s := by
    intro s hs hc
    exact hP (((placeholderWord_prefix_marker j).isInfix.trans hc).trans hs)
  intro lo ts hAlt
  induction hAlt with
  | @single s hs =>
    simp only [flatT, Tok.flat, substOneTok, List.append_nil]
    rw [if_neg (by simp : ¬ (Tok.lit s = Tok.mark j))]
    simp only [flatT, Tok.flat, List.append_nil]
    exact replaceAll_no_occur (marker j) ph s (hnotext s hs)
  | @cons s X ts hs hX hts ih =>
    have hXne : X.flat ≠ [] := by
      rcases hX with ⟨m, rfl, _, hm⟩ | ⟨p, rfl, hpinf, hpshape⟩
      · exact marker_ne_nil m
      · exact shape_ne_nil hpshape
    have hXhead : X.flat.head? = some 'P' ∨ X.flat.head? = some '{' := by
      rcases hX with ⟨m, rfl, _, hm⟩ | ⟨p, rfl, hpinf, hpshape⟩
      · exact Or.inl (marker_head m (lt_of_lt_of_le hm hhi))
      · exact Or.inr (shape_head hpshape)
    have hnc1 : NoCross (marker j) s (X.flat ++ flatT ts) := by
      rintro s1 s2 hpat h1 h2 ⟨hsub, hpre⟩
      have hd : s2 = (marker j).drop s1.length := append_eq_drop hpat
      have hdpos : 0 < s1.length := List.length_pos.mpr h1
      have hdlt : s1.length < 12 := by
        have hlen := congrArg List.length hpat
        simp only [List.length_append] at hlen
        rw [marker_length j hj] at hlen
        have h2len : 0 < s2.length := List.length_pos.mpr h2
        omega
      have hheads := head_of_prefix_eq hpre h2
      rw [head?_append_left hXne] at hheads
      have hdh := marker_drop_head j hj s1.length hdlt hdpos
      rcases hXhead with hh | hh
      · rw [hh] at hheads
        rw [hd] at hheads
        exact hdh.1 hheads
      · rw [hh] at hheads
        rw [hd] at hheads
        exact hdh.2 hheads
    have hnc2 : NoCross (marker j) X.flat (flatT ts) := by
      rintro s1 s2 hpat h1 h2 ⟨hsub, hpre⟩
      rcases hX with ⟨m, rfl, _, hm⟩ | ⟨p, rfl, hpinf, hpshape⟩
      · have hm10 : m < 10 := lt_of_lt_of_le hm hhi
        have hs1d : s1 = (marker m).drop ((marker m).length - s1.length) :=
          suffix_eq_drop hsub
        have hs1lenle : s1.length ≤ (marker m).length :=
          List.IsSuffix.length_le hsub
        by_cases hfull : s1.length = (marker m).length
        · have hlen := congrArg List.length hpat
          simp only [List.length_append] at hlen
          rw [marker_length j hj] at hlen
          rw [marker_length m hm10] at hfull
          have h2len : 0 < s2.length := List.length_pos.mpr h2
          omega
        · have hdpos : 0 < (marker m).length - s1.length := by omega
          have hdlt : (marker m).length - s1.length < 12 := by
            rw [marker_length m hm10]
            have h1len : 0 < s1.length := List.length_pos.mpr h1
            omega
          have hs1pre : s1 <+: marker j := ⟨s2, hpat⟩
          rw [hs1d] at hs1pre
          exact marker_drop_not_prefix m hm10 j hj _
            (by rw [marker_length m hm10] at hdlt ⊢; exact hdlt) hdpos hs1pre
      · have hrb : '}' ∈ s1 := shape_suffix_mem hpshape hsub h1
        have hs1pre : s1 <+: marker j := ⟨s2, hpat⟩
        exact (marker_brace_free j hj).2 (mem_of_prefix_mem hs1pre hrb)
    have hXrepl : replaceAll (marker j) ph X.flat
        = (if X = Tok.mark j then Tok.lit ph else X).flat := by
      rcases hX with ⟨m, rfl, _, hm⟩ | ⟨p, rfl, hpinf, hpshape⟩
      · by_cases hmj : m = j
        · subst hmj
          rw [if_pos rfl]
          show replaceAll (marker m) ph (marker m) = ph
          exact replaceAll_self ph (marker m) (marker_ne_nil m)
        · rw [if_neg (by simp [hmj])]
          show replaceAll (marker j) ph (marker m) = marker m
          exact replaceAll_no_occur (marker j) ph (marker m)
            (marker_no_occur m (lt_of_lt_of_le hm hhi) j hj hmj)
      · rw [if_neg (by simp)]
        show replaceAll (marker j) ph p = p
        exact replaceAll_no_occur (marker j) ph p (hnotext p hpinf)
    show replaceAll (marker j) ph (s ++ (X.flat ++ flatT ts))
      = s ++ ((if X = Tok.mark j then Tok.lit ph else X).flat
        ++ flatT (substOneTok j ph ts))
    rw [replaceAll_append (marker j) ph hmne s _ hnc1,
      replaceAll_append (marker j) ph hmne X.flat _ hnc2,
      replaceAll_no_occur (marker j) ph s (hnotext s hs), ih, hXrepl]

theorem protStep_alt {text ph : List Char} {i : Nat} (hne : ph ≠ []) :
    ∀ ts, Alt (LitOf text) (XPk i) ts →
    Alt (LitOf text) (XPk (i + 1)) (protStep ph i ts) := by
  intro ts hAlt
  induction hAlt with
  | @single s hs =>
    show Alt _ _ (tokenizeChunks i (chunksOf ph s) ++ protStep ph i [])
    rw [show protStep ph i [] = [] from rfl, List.append_nil]
    exact Alt_tokenizeChunks i ⟨i, rfl, by omega⟩ _ (chunksOf_ne_nil ph s)
      (fun c hc => ((chunksOf_infix_spec ph hne s).1 c hc).trans hs)
  | @cons s X ts hs hX hts ih =>
    obtain ⟨m, rfl, hm⟩ := hX
    show Alt _ _ (tokenizeChunks i (chunksOf ph s)
      ++ (Tok.mark m :: protStep ph i ts))
    exact Alt.append
      (Alt_tokenizeChunks i ⟨i, rfl, by omega⟩ _ (chunksOf_ne_nil ph s)
        (fun c hc => ((chunksOf_infix_spec ph hne s).1 c hc).trans hs))
      ⟨m, rfl, by omega⟩ ih

theorem protStep_substAll (phs : List (List Char)) (ph : List Char) (i : Nat)
    (hph : phs.getD i [] = ph) (hne : ph ≠ []) :
    ∀ ts, substAll phs (protStep ph i ts) = substAll phs ts
  | [] => rfl
  | .lit s :: ts => by
    show substAll phs (tokenizeChunks i (chunksOf ph s) ++ protStep ph i ts)
      = s ++ substAll phs ts
    rw [substAll_append, substAll_tokenizeChunks phs i ph hph,
      joinSep_chunksOf ph hne s, protStep_substAll phs ph i hph hne ts]
  | .mark m :: ts => by
    show phs.getD m [] ++ substAll phs (protStep ph i ts)
      = phs.getD m [] ++ substAll phs ts
    rw [protStep_substAll phs ph i hph hne ts]

theorem substOneTok_alt {text ph : List Char} {j hi : Nat}
    (hinf : ph <:+: text) (hshape : ∃ body, ph = '{' :: (body ++ ['}'])) :
    ∀ ts, Alt (LitOf text) (XRng text j hi) ts →
    Alt (LitOf text) (XRng text (j + 1) hi) (substOneTok j ph ts) := by
  intro ts hAlt
  induction hAlt with
  | @single s hs =>
    show Alt _ _ ((if Tok.lit s = Tok.mark j then Tok.lit ph else Tok.lit s)
      :: substOneTok j ph [])
    rw [if_neg (by simp)]
    exact .single hs
  | @cons s X ts hs hX hts ih =>
    show Alt _ _ ((if Tok.lit s = Tok.mark j then Tok.lit ph else Tok.lit s)
      :: (if X = Tok.mark j then Tok.lit ph else X) :: substOneTok j ph ts)
    rw [if_neg (by simp)]
    refine .cons hs ?_ ih
    rcases hX with ⟨m, rfl, hlo, hm⟩ | ⟨p, rfl, hpinf, hpshape⟩
    · by_cases hmj : m = j
      · subst hmj
        rw [if_pos rfl]
        exact Or.inr ⟨ph, rfl, hinf, hshape⟩
      · rw [if_neg (by simp [hmj])]
        exact Or.inl ⟨m, rfl, by omega, hm⟩
    · rw [if_neg (by simp)]
      exact Or.inr ⟨p, rfl, hpinf, hpshape⟩

theorem substOneTok_substAll (phs : List (List Char)) (ph : List Char)
    (j : Nat) (hph : phs.getD j [] = ph) :
    ∀ ts, substAll phs (substOneTok j ph ts) = substAll phs ts
  | [] => rfl
  | t :: ts => by
    show substAll phs ((if t = Tok.mark j then Tok.lit ph else t)
      :: substOneTok j ph ts) = substAll phs (t :: ts)
    by_cases htj : t = Tok.mark j
    · subst htj
      rw [if_pos rfl]
      show ph ++ substAll phs (substOneTok j ph ts)
        = phs.getD j [] ++ substAll phs ts
      rw [substOneTok_substAll phs ph j hph ts, hph]
    · rw [if_neg htj]
      cases t with
      | lit s =>
        show s ++ substAll phs (substOneTok j ph ts) = s ++ substAll phs ts
        rw [substOneTok_substAll phs ph j hph ts]
      | mark m =>
        show phs.getD m [] ++ substAll phs (substOneTok j ph ts)
          = phs.getD m [] ++ substAll phs ts
        rw [substOneTok_substAll phs ph j hph ts]

theorem flatT_eq_substAll (phs : List (List Char)) {text : List Char}
    {k : Nat} : ∀ ts, Alt (LitOf text) (XRng text k k) ts →
    flatT ts = substAll phs ts := by
  intro ts hAlt
  induction hAlt with
  | @single s hs => rfl
  | @cons s X ts hs hX hts ih =>
    rcases hX with ⟨m, _, hlo, hm⟩ | ⟨p, rfl, _, _⟩
    · omega
    · show s ++ (p ++ flatT ts) = s ++ (p ++ substAll phs ts)
      rw [ih]

theorem flatT_single (s : List Char) : flatT [Tok.lit s] = s := by
  simp [flatT, Tok.flat]

theorem substAll_single (phs : List (List Char)) (s : List Char) :
    substAll phs [Tok.lit s] = s := by
  simp [substAll]

theorem protect_loop_run (text : List Char)
    (hP : ¬ placeholderWord <:+: text) (phs0 : List (List Char))
    (hall : ∀ ph ∈ phs0, ph <:+: text ∧ ∃ body, ph = '{' :: (body ++ ['}'])) :
    ∀ (rem : List (List Char)) (i : Nat) (ts : List Tok),
    i + rem.length ≤ 10 →
    phs0.drop i = rem →
    Alt (LitOf text) (XPk i) ts →
    (protectLoop rem i (flatT ts)).1 = flatT (protTokLoop rem i ts) ∧
    Alt (LitOf text) (XPk (i + rem.length)) (protTokLoop rem i ts) ∧
    substAll phs0 (protTokLoop rem i ts) = substAll phs0 ts
  | [], i, ts, _, _, hAlt => ⟨rfl, hAlt, rfl⟩
  | ph :: rest, i, ts, hle, hdrop, hAlt => by
    simp only [List.length_cons] at hle
    have hmem : ph ∈ phs0 := by
      have hm0 : ph ∈ phs0.drop i := by
        rw [hdrop]
        exact List.mem_cons_self _ _
      exact List.mem_of_mem_drop hm0
    obtain ⟨hinf, hshape⟩ := hall ph hmem
    have hne : ph ≠ [] := shape_ne_nil hshape
    have hget : phs0.getD i [] = ph := by
      have h0 : phs0[i]? = some ph := by
        have hd := List.getElem?_drop phs0 i 0
        rw [hdrop] at hd
        simpa using hd.symm
      simp [List.getD_eq_getElem?_getD, h0]
    have hdrop2 : phs0.drop (i + 1) = rest := by
      have hdd : phs0.drop (i + 1) = (phs0.drop i).drop 1 := by
        rw [List.drop_drop]
      rw [hdd, hdrop]
      rfl
    have hflat := protStep_flat text ph i i (by omega) hshape hinf hP ts hAlt
    have halt2 := protStep_alt hne ts hAlt
    have hrec := protect_loop_run text hP phs0 hall rest (i + 1)
      (protStep ph i ts) (by omega) hdrop2 halt2
    refine ⟨?_, ?_, ?_⟩
    · show (protectLoop rest (i + 1)
        (replaceAll ph (marker i) (flatT ts))).1
        = flatT (protTokLoop rest (i + 1) (protStep ph i ts))
      rw [hflat]
      exact hrec.1
    · have h21 := hrec.2.1
      rw [show i + 1 + rest.length = i + (rest.length + 1) from by omega] at h21
      exact h21
    · rw [show protTokLoop (ph :: rest) i ts
        = protTokLoop rest (i + 1) (protStep ph i ts) from rfl,
        hrec.2.2, protStep_substAll phs0 ph i hget hne ts]

theorem restore_loop_run (text : List Char)
    (hP : ¬ placeholderWord <:+: text) (phs0 : List (List Char)) (k : Nat)
    (hk : k ≤ 10)
    (hall : ∀ ph ∈ phs0, ph <:+: text ∧ ∃ body, ph = '{' :: (body ++ ['}'])) :
    ∀ (rem : List (List Char)) (j : Nat) (ts : List Tok),
    j + rem.length = k →
    phs0.drop j = rem →
    Alt (LitOf text) (XRng text j k) ts →
    restore_placeholders (flatT ts) (mapIdxFrom j rem)
      = flatT (restTokLoop rem j ts) ∧
    Alt (LitOf text) (XRng text k k) (restTokLoop rem j ts) ∧
    substAll phs0 (restTokLoop rem j ts) = substAll phs0 ts
  | [], j, ts, hjk, _, hAlt => by
    simp only [List.length_nil, Nat.add_zero] at hjk
    subst hjk
    exact ⟨rfl, hAlt, rfl⟩
  | ph :: rest, j, ts, hjk, hdrop, hAlt => by
    simp only [List.length_cons] at hjk
    have hj10 : j < 10 := by omega
    have hmem : ph ∈ phs0 := by
      have hm0 : ph ∈ phs0.drop j := by
        rw [hdrop]
        exact List.mem_cons_self _ _
      exact List.mem_of_mem_drop hm0
    obtain ⟨hinf, hshape⟩ := hall ph hmem
    have hget : phs0.getD j [] = ph := by
      have h0 : phs0[j]? = some ph := by
        have hd := List.getElem?_drop phs0 j 0
        rw [hdrop] at hd
        simpa using hd.symm
      simp [List.getD_eq_getElem?_getD, h0]
    have hdrop2 : phs0.drop (j + 1) = rest := by
      have hdd : phs0.drop (j + 1) = (phs0.drop j).drop 1 := by
        rw [List.drop_drop]
      rw [hdd, hdrop]
      rfl
    have hflat := substOneTok_flat text j k hj10 hk ph hP j ts hAlt
    have halt2 := substOneTok_alt hinf hshape ts hAlt
    have hrec := restore_loop_run text hP phs0 k hk hall rest (j + 1)
      (substOneTok j ph ts) (by omega) hdrop2 halt2
    refine ⟨?_, hrec.2.1, ?_⟩
    · show restore_placeholders (replaceAll (marker j) ph (flatT ts))
        (mapIdxFrom (j + 1) rest)
        = flatT (restTokLoop rest (j + 1) (substOneTok j ph ts))
      rw [hflat]
      exact hrec.1
    · rw [show restTokLoop (ph :: rest) j ts
        = restTokLoop rest (j + 1) (substOneTok j ph ts) from rfl,
        hrec.2.2, substOneTok_substAll phs0 ph j hget ts]

/-- C2 (amended): for every input text that does not contain the word
PLACEHOLDER and whose placeholder count is at most 10, protect extracts
every brace-delimited placeholder left to right, pairs the i-th one with
marker PLACEHOLDERi in the map, and restore applied to the two outputs of
protect (identity transform in between) returns the original text exactly.
The unrestricted claim is false: see the counterexample. -/
theorem protect_restore_round_trip (text : List Char)
    (hP : ¬ placeholderWord <:+: text)
    (hK : (findPlaceholders text).length ≤ 10) :
    restore_placeholders (protect_placeholders text).1
      (protect_placeholders text).2 = text ∧
    (protect_placeholders text).2
      = mapIdxFrom 0 (findPlaceholders text) ∧
    ∀ ph ∈ findPlaceholders text,
      ph <:+: text ∧ ∃ body, ph = '{' :: (body ++ ['}']) := by
  have hall := findPlaceholders_spec text
  refine ⟨?_, protectLoop_map (findPlaceholders text) 0 text, hall⟩
  have hts0 : Alt (LitOf text) (XPk 0) [Tok.lit text] :=
    .single (List.infix_refl text)
  have hprot := protect_loop_run text hP (findPlaceholders text) hall
    (findPlaceholders text) 0 [Tok.lit text] (by omega) rfl hts0
  rw [flatT_single] at hprot
  obtain ⟨hp1, hp2, hp3⟩ := hprot
  rw [substAll_single] at hp3
  have halt1 : Alt (LitOf text)
      (XRng text 0 (findPlaceholders text).length)
      (protTokLoop (findPlaceholders text) 0 [Tok.lit text]) := by
    refine hp2.mono (fun X hX => ?_)
    obtain ⟨m, rfl, hm⟩ := hX
    exact Or.inl ⟨m, rfl, by omega, by omega⟩
  have hrest := restore_loop_run text hP (findPlaceholders text)
    (findPlaceholders text).length hK hall (findPlaceholders text) 0
    (protTokLoop (findPlaceholders text) 0 [Tok.lit text]) (by omega) rfl
    halt1
  obtain ⟨hr1, hr2, hr3⟩ := hrest
  show restore_placeholders (protectLoop (findPlaceholders text) 0 text).1
    (protectLoop (findPlaceholders text) 0 text).2 = text
  rw [protectLoop_map (findPlaceholders text) 0 text, hp1, hr1,
    flatT_eq_substAll (findPlaceholders text) _ hr2, hr3, hp3]

/-- Counterexample to the unrestricted C2 round-trip claim: on the input
PLACEHOLDER0{x} the marker collides with a substring of the input, and
restoring after protecting yields {x}{x}, not the original text. -/
theorem protect_restore_counterexample :
    restore_placeholders
        (protect_placeholders "PLACEHOLDER0{x}".data).1
        (protect_placeholders "PLACEHOLDER0{x}".data).2
      = "{x}{x}".data ∧
    "{x}{x}".data ≠ "PLACEHOLDER0{x}".data := by
  constructor
  · have hdata : "PLACEHOLDER0{x}".data
        = ['P','L','A','C','E','H','O','L','D','E','R','0','{','x','}'] :=
      rfl
    have hm0 : marker 0
        = ['P','L','A','C','E','H','O','L','D','E','R','0'] := by decide
    rw [hdata]
    simp +decide [protect_placeholders, protectLoop, restore_placeholders,
      findPlaceholders, replaceAll, hm0, List.takeWhile, List.dropWhile,
      List.foldl]
  · decide

/-- Witness for the amended C2 at a concrete two-placeholder text. -/
theorem protect_restore_round_trip_witness :
    restore_placeholders
        (protect_placeholders "Welcome {name} to {place}".data).1
        (protect_placeholders "Welcome {name} to {place}".data).2
      = "Welcome {name} to {place}".data :=
  (protect_restore_round_trip "Welcome {name} to {place}".data
    (by decide)
    (by
      have hdata : "Welcome {name} to {place}".data
          = ['W','e','l','c','o','m','e',' ','{','n','a','m','e','}',' ',
             't','o',' ','{','p','l','a','c','e','}'] := rfl
      rw [hdata]
      simp +decide [findPlaceholders, List.takeWhile, List.dropWhile])).1

end Callastar
